import Mathlib

/-!
# Verification of the qcomp gate module

Shallow embedding of `qcomp/gate.py`: dense matrix gates (`MGate`) with their
composition operators, the oracle builder `construct_unitary_F`, the
index-permutation `LazyGate`, and the specialized appliers `LazyCNOT` and
`LazyNOT`.

Conventions of the embedding:
* numpy complex arrays are modelled over an arbitrary commutative ring `α`
  (floating-point rounding is not modelled; arithmetic is exact);
* a numpy matrix is an `NPMatrix`: an explicit shape plus an entry function;
* a state vector is a `List α`;
* operations that can raise a Python exception (assertion failures in
  `MGate.__init__`, numpy shape errors in `dot`/`matmul`, index errors in
  fancy indexing) return `Option`/are guarded, with `none` marking the raise.
-/

section Defs

variable {α : Type} [CommRing α]

/-- A numpy 2-d array: its shape together with its entries.  Entries outside
the shape are junk and never inspected. -/
structure NPMatrix (α : Type) where
  rows : Nat
  cols : Nat
  entry : Nat → Nat → α

/-- `np.matmul(A, B)`: fails (raises) unless the inner dimensions agree. -/
def npMatmul (A B : NPMatrix α) : Option (NPMatrix α) :=
  if A.cols = B.rows then
    some ⟨A.rows, B.cols, fun i k => ∑ j ∈ Finset.range A.cols, A.entry i j * B.entry j k⟩
  else none

/-- `np.kron(A, B)`: `K[i1*Br + i2, j1*Bc + j2] = A[i1,j1] * B[i2,j2]`. -/
def npKron (A B : NPMatrix α) : NPMatrix α :=
  ⟨A.rows * B.rows, A.cols * B.cols, fun i j =>
    A.entry (i / B.rows) (j / B.cols) * B.entry (i % B.rows) (j % B.cols)⟩

/-- `matrix.dot(vec)`: fails (raises) unless `cols` matches the vector length. -/
def npDotVec (M : NPMatrix α) (v : List α) : Option (List α) :=
  if M.cols = v.length then
    some ((List.range M.rows).map (fun i => ∑ j ∈ Finset.range M.cols, M.entry i j * v.getD j 0))
  else none

/-- Modelled from the spec: the register collaborator (`qcomp.qregister.QReg`,
not part of the core source).  Spec §6: a register exposes a qubit count and a
complex amplitude vector of length `2^(qubit count)`, and can be constructed
from a qubit count and a state vector (`QReg(len(qreg), new_state)` in the
source, with `len` returning the qubit count). -/
structure QReg (α : Type) where
  nbits : Nat
  state : List α
deriving DecidableEq

/-- The basis register `|i>` of `n` qubits: amplitude 1 at basis index `i`,
0 elsewhere. -/
def basisReg (n i : Nat) : QReg α :=
  ⟨n, (List.range (2 ^ n)).map (fun j => if j = i then 1 else 0)⟩

/-- Dense matrix gate (`MGate` fields). -/
structure MGate (α : Type) where
  matrix : NPMatrix α
  qreg_size : Nat

/-- `MGate.__init__`: asserts the matrix is square and that
`2**qreg_size == matrix.shape[0]`. -/
def MGate.make (matrix : NPMatrix α) (qreg_size : Nat) : Option (MGate α) :=
  if matrix.rows = matrix.cols ∧ 2 ^ qreg_size = matrix.rows then
    some ⟨matrix, qreg_size⟩
  else none

/-- `MGate.__add__`: `MGate(np.matmul(self.matrix, other.matrix), self.qreg_size)`. -/
def MGate.add (g h : MGate α) : Option (MGate α) := do
  let m ← npMatmul g.matrix h.matrix
  MGate.make m g.qreg_size

/-- `MGate.__mul__`: `MGate(np.kron(self.matrix, other.matrix), self.qreg_size + other.qreg_size)`. -/
def MGate.mul (g h : MGate α) : Option (MGate α) :=
  MGate.make (npKron g.matrix h.matrix) (g.qreg_size + h.qreg_size)

/-- `MGate.__pow__`: `i == 1` returns `self`, otherwise `self * self**(i-1)`.
For `i = 0` the Python recursion never terminates (it hits Python's recursion
limit), modelled as `none`. -/
def MGate.pow (g : MGate α) : Nat → Option (MGate α)
  | 0 => none
  | 1 => some g
  | i + 2 => do
    let p ← MGate.pow g (i + 1)
    MGate.mul g p

/-- `MGate.apply`: `new_state = self.matrix.dot(qreg.state)`, then
`QReg(len(qreg), new_state)`.  Note the override performs no size assertion of
its own; the only failure is numpy's shape error inside `dot`. -/
def MGate.apply (g : MGate α) (qreg : QReg α) : Option (QReg α) := do
  let s ← npDotVec g.matrix qreg.state
  some ⟨qreg.nbits, s⟩

/-- `int(s, 2)` for a bit string `s` (most significant bit first). -/
def natOfBits (s : List Bool) : Nat :=
  s.foldl (fun a b => 2 * a + b.toNat) 0

/-- Modelled from the spec: the basis label of index `i` in an `L`-qubit
register (`QReg(L).bases`, from the register collaborator): the `L`-bit
binary string of `i`, most significant bit first, here as a `List Bool`. -/
def bitsOfNat : Nat → Nat → List Bool
  | 0, _ => []
  | L + 1, i => bitsOfNat L (i / 2) ++ [decide (i % 2 = 1)]

/-- A single element assignment `M[r, c] = v`. -/
def NPMatrix.setEntry (M : NPMatrix α) (r c : Nat) (v : α) : NPMatrix α :=
  ⟨M.rows, M.cols, fun i j => if i = r ∧ j = c then v else M.entry i j⟩

/-- `construct_unitary_F(fdef, in_size)`.  `fdef` is the list of accepted bit
strings (each a `List Bool`).  `in_size = none` models Python `None`; the
Python guard `if not in_size` also treats `0` as missing, and `len(fdef[0])`
raises on an empty `fdef` (modelled as `none`). -/
def construct_unitary_F (fdef : List (List Bool)) (in_size : Option Nat := none) :
    Option (MGate α) := do
  let inSize ← match in_size with
    | some k => if k = 0 then fdef.head?.map List.length else some k
    | none => fdef.head?.map List.length
  let reg_size := inSize + 1
  let dummy_bases := (List.range (2 ^ inSize)).map (bitsOfNat inSize)
  let cmatrix0 : NPMatrix α := ⟨2 ^ reg_size, 2 ^ reg_size, fun _ _ => 0⟩
  let cmatrix := (dummy_bases.zip (List.range' 0 (2 ^ inSize) 2)).foldl
    (fun M p =>
      let base := p.1
      let i_col := p.2
      if base ∈ fdef then
        (M.setEntry (natOfBits (base ++ [true])) i_col 1).setEntry
          (natOfBits (base ++ [false])) (i_col + 1) 1
      else
        (M.setEntry (natOfBits (base ++ [false])) i_col 1).setEntry
          (natOfBits (base ++ [true])) (i_col + 1) 1)
    cmatrix0
  MGate.make cmatrix reg_size

/-- One iteration of the `construct_unitary_F` loop, at basis index `i`
(columns `2*i` and `2*i+1`); proof-side name. -/
def oracleStep (fdef : List (List Bool)) (L : Nat) (M : NPMatrix α) (i : Nat) :
    NPMatrix α :=
  if bitsOfNat L i ∈ fdef then
    (M.setEntry (natOfBits (bitsOfNat L i ++ [true])) (2 * i) 1).setEntry
      (natOfBits (bitsOfNat L i ++ [false])) (2 * i + 1) 1
  else
    (M.setEntry (natOfBits (bitsOfNat L i ++ [false])) (2 * i) 1).setEntry
      (natOfBits (bitsOfNat L i ++ [true])) (2 * i + 1) 1

/-- `list(filter(lambda x: not x in qbpos, range(qreg_size)))`: the spectator
positions, in ascending order. -/
def specposOf (qbpos : List Nat) (qreg_size : Nat) : List Nat :=
  (List.range qreg_size).filter (fun x => !decide (x ∈ qbpos))

/-- `LazyGate.get_qbpos(base)`: pack the bits of `base` found at the target
positions, the bit at `qbpos[0]` becoming the most significant. -/
def get_qbpos (qbpos : List Nat) (base : Nat) : Nat :=
  (List.range qbpos.length).foldl
    (fun a i =>
      let q := qbpos.getD i 0
      a ||| ((base &&& (1 <<< q)) >>> q) <<< (qbpos.length - i - 1))
    0

/-- `LazyGate.get_spectator(base)`: pack the bits of `base` found at the
spectator positions, the bit at `specpos[i]` landing at bit `i`. -/
def get_spectator (specpos : List Nat) (base : Nat) : Nat :=
  (List.range specpos.length).foldl
    (fun a i =>
      let q := specpos.getD i 0
      a ||| ((base &&& (1 <<< q)) >>> (q - i)))
    0

/-- The in-place loop `for i in range(0, qsize, msize): bases[i:i+msize] =
bases[i:i+msize][argsort(key)]`: sort each consecutive chunk of size `m` by
`key`.  (numpy's `argsort` is not stable, but every chunk this is applied to
carries pairwise distinct keys, so a stable sort is an exact model.) -/
def chunkSort (key : Nat → Nat) (m : Nat) : List Nat → List Nat
  | [] => []
  | x :: xs =>
    if m = 0 then x :: xs
    else ((x :: xs).take m).mergeSort (fun a b => decide (key a ≤ key b)) ++
      chunkSort key m ((x :: xs).drop m)
termination_by l => l.length
decreasing_by simp [List.length_drop]; omega

/-- The fields computed by `LazyGate.__init__`. -/
structure LazyGate (α : Type) where
  qreg_size : Nat
  matrix : NPMatrix α
  msize : Nat
  qsize : Nat
  qbpos : List Nat
  specpos : List Nat
  bases : List Nat

/-- `LazyGate.__init__(matrix, qbpos, qreg_size)`: stores the matrix, derives
the spectator positions, and shuffles `arange(2**qreg_size)`: first a sort by
spectator key (`argsort` grouping equal keys contiguously — modelled with a
stable sort, see `chunkSort`), then an in-place sort of each `msize` chunk by
target key.  The constructor performs no validation of its arguments. -/
def LazyGate.init (matrix : NPMatrix α) (qbpos : List Nat) (qreg_size : Nat) :
    LazyGate α :=
  let msize := 2 ^ qbpos.length
  let qsize := 2 ^ qreg_size
  let specpos := specposOf qbpos qreg_size
  let bases0 := List.range qsize
  let bases1 := bases0.mergeSort
    (fun a b => decide (get_spectator specpos a ≤ get_spectator specpos b))
  let bases := chunkSort (get_qbpos qbpos) msize bases1
  ⟨qreg_size, matrix, msize, qsize, qbpos, specpos, bases⟩

/-- One block of `LazyGate.apply`: gather `state` at `idxs` (an index error if
one is out of range), multiply by the local matrix (a shape error if the sizes
disagree), and scatter the result back at `idxs` into `ns`. -/
def lazyBlockStep (M : NPMatrix α) (state : List α) (ns : List α) (idxs : List Nat) :
    Option (List α) :=
  if idxs.all (fun t => decide (t < state.length)) then do
    let vals ← npDotVec M (idxs.map (fun t => state.getD t 0))
    if idxs.length = vals.length then
      some ((idxs.zip vals).foldl (fun l p => l.set p.1 p.2) ns)
    else none
  else none

/-- `LazyGate.apply` on the raw state vector: `new_state = zeros(len(state))`,
then for each `i in range(0, qsize, msize)`:
`new_state[bases[i:i+msize]] = matrix.dot(state[bases[i:i+msize]])`. -/
def LazyGate.applyState (g : LazyGate α) (state : List α) : Option (List α) :=
  (List.range' 0 ((g.qsize + g.msize - 1) / g.msize) g.msize).foldlM
    (fun ns i => lazyBlockStep g.matrix state ns ((g.bases.drop i).take g.msize))
    (List.replicate state.length 0)

/-- `LazyGate.apply`: wraps the new state in `QReg(len(qreg), new_state)`. -/
def LazyGate.apply (g : LazyGate α) (qreg : QReg α) : Option (QReg α) :=
  (g.applyState qreg.state).map (fun s => ⟨qreg.nbits, s⟩)

/-- Modelled from the spec: the dense `2^n × 2^n` gate obtained by tensoring
`U` and identity matrices so that `U` acts at positions `qbpos` (spec §8,
"Lazy-gate equivalence").  Entry `(x, y)` is `U[target-bits of x, target-bits
of y]` when `x` and `y` agree on every spectator bit, and `0` otherwise; the
target bits are read in the matrix's row/column convention (spec §4.3: binary
index with the most significant target position first). -/
def denseEmbed (U : NPMatrix α) (qbpos : List Nat) (qreg_size : Nat) : NPMatrix α :=
  let specpos := specposOf qbpos qreg_size
  ⟨2 ^ qreg_size, 2 ^ qreg_size, fun x y =>
    if get_spectator specpos x = get_spectator specpos y then
      U.entry (get_qbpos qbpos x) (get_qbpos qbpos y)
    else 0⟩

/-- The first shuffle of `LazyGate.__init__`:
`bases[argsort(gather_spectators())]`; proof-side name for the intermediate
list. -/
def lazyStage1 (qbpos : List Nat) (n : Nat) : List Nat :=
  (List.range (2 ^ n)).mergeSort
    (fun a b =>
      decide (get_spectator (specposOf qbpos n) a ≤ get_spectator (specposOf qbpos n) b))

/-- The combined sort key of `LazyGate.__init__`: spectator key (major) and
target key (minor); proof-side helper. -/
def lazyKey (qbpos : List Nat) (n : Nat) (b : Nat) : Nat :=
  get_spectator (specposOf qbpos n) b * 2 ^ qbpos.length + get_qbpos qbpos b

/-- Proof-side name for the complete write list of `LazyGate.apply`: block `i`
contributes the pairs of target index (a slice of `bases`) and local matvec
value. -/
def lazyWrites (U : NPMatrix α) (qbpos : List Nat) (n : Nat) (state : List α) :
    List (Nat × α) :=
  ((List.range' 0 (2 ^ (n - qbpos.length)) (2 ^ qbpos.length)).map (fun i =>
    (((chunkSort (get_qbpos qbpos) (2 ^ qbpos.length) (lazyStage1 qbpos n)).drop i).take
        (2 ^ qbpos.length)).zip
      ((List.range U.rows).map fun r =>
        ∑ j ∈ Finset.range U.cols, U.entry r j *
          ((((chunkSort (get_qbpos qbpos) (2 ^ qbpos.length) (lazyStage1 qbpos n)).drop i).take
              (2 ^ qbpos.length)).map fun t => state.getD t 0).getD j 0))).flatten

/-- `LazyCNOT`: stores only the number of controls. -/
structure LazyCNOT where
  ncontrols : Nat

/-- `LazyCNOT.dot`: copy the state and swap the last two amplitudes
(an index error on vectors of length < 2). -/
def LazyCNOT.dot (_g : LazyCNOT) (state : List α) : Option (List α) :=
  if 2 ≤ state.length then
    some ((state.set (state.length - 1) (state.getD (state.length - 2) 0)).set
      (state.length - 2) (state.getD (state.length - 1) 0))
  else none

/-- `LazyNOT`: stores only the register size. -/
structure LazyNOT where
  nbits : Nat

/-- `LazyNOT.dot`: `qreg_state[::-1]`, the reversed amplitude vector. -/
def LazyNOT.dot (_g : LazyNOT) (state : List α) : List α :=
  state.reverse

/-- The invariant `MGate.__init__` establishes: a square matrix whose
dimension is `2**qreg_size`. -/
def MGate.WF (g : MGate α) : Prop :=
  g.matrix.rows = g.matrix.cols ∧ 2 ^ g.qreg_size = g.matrix.rows

/-- The `NOT` gate matrix over `ℤ` (used for concrete witnesses). -/
def Xmat : NPMatrix ℤ :=
  ⟨2, 2, fun i j => if (i = 0 ∧ j = 1) ∨ (i = 1 ∧ j = 0) then 1 else 0⟩

/-- The phase-flip matrix `diag(1, -1)` over `ℤ` (used for concrete witnesses). -/
def Zmat : NPMatrix ℤ :=
  ⟨2, 2, fun i j => if i = 0 ∧ j = 0 then 1 else if i = 1 ∧ j = 1 then -1 else 0⟩

/-- The source's `NOT` 1-qubit dense gate, over `ℤ`. -/
def Xgate : MGate ℤ := ⟨Xmat, 1⟩

/-- A 1-qubit phase-flip dense gate, over `ℤ`. -/
def Zgate : MGate ℤ := ⟨Zmat, 1⟩

/-- The 1-qubit basis register `|0>` over `ℤ`. -/
def e0reg : QReg ℤ := ⟨1, [1, 0]⟩

end Defs

section BasicLemmas

lemma getD_map_range {β : Type} (f : Nat → β) (n k : Nat) (d : β) :
    ((List.range n).map f).getD k d = if k < n then f k else d := by
  rcases Nat.lt_or_ge k n with h | h
  · simp [List.getD_eq_getElem?_getD, List.getElem?_map, List.getElem?_range, h]
  · rw [List.getD_eq_getElem?_getD, List.getElem?_map,
      List.getElem?_eq_none (by simpa using h)]
    simp [Nat.not_lt.mpr h]

variable {α : Type} [CommRing α]

omit [CommRing α] in
lemma MGate.make_eq_some {M : NPMatrix α} {k : Nat} {g : MGate α}
    (h : MGate.make M k = some g) : g.matrix = M ∧ g.qreg_size = k ∧ g.WF := by
  unfold MGate.make at h
  split at h
  · rename_i hc
    cases h
    exact ⟨rfl, rfl, hc.1, hc.2⟩
  · cases h

omit [CommRing α] in
lemma MGate.make_of_wf {M : NPMatrix α} {k : Nat}
    (h1 : M.rows = M.cols) (h2 : 2 ^ k = M.rows) :
    MGate.make M k = some ⟨M, k⟩ := by
  simp [MGate.make, h1, h2]

lemma npDotVec_eq_some {M : NPMatrix α} {v : List α} (h : M.cols = v.length) :
    npDotVec M v =
      some ((List.range M.rows).map fun i =>
        ∑ j ∈ Finset.range M.cols, M.entry i j * v.getD j 0) := by
  simp [npDotVec, h]

lemma npDotVec_eq_none {M : NPMatrix α} {v : List α} (h : M.cols ≠ v.length) :
    npDotVec M v = none := by
  simp [npDotVec, h]

lemma npMatmul_eq_some {A B : NPMatrix α} (h : A.cols = B.rows) :
    npMatmul A B =
      some ⟨A.rows, B.cols, fun i k => ∑ j ∈ Finset.range A.cols, A.entry i j * B.entry j k⟩ := by
  simp [npMatmul, h]

/-- Matrix-vector product against a matrix product: apply the right factor
first.  No size hypotheses: mismatches make both sides `none`. -/
lemma npDotVec_npMatmul {A B C : NPMatrix α} (hC : npMatmul A B = some C) (v : List α) :
    npDotVec C v = (npDotVec B v).bind (fun w => npDotVec A w) := by
  unfold npMatmul at hC
  split at hC
  · rename_i hab
    cases hC
    by_cases hv : B.cols = v.length
    · rw [npDotVec_eq_some hv]
      rw [npDotVec_eq_some (show (⟨A.rows, B.cols, _⟩ : NPMatrix α).cols = v.length from hv)]
      rw [Option.some_bind]
      rw [npDotVec_eq_some (by simp [hab])]
      congr 1
      apply List.map_congr_left
      intro i _
      simp only
      calc
        ∑ j ∈ Finset.range B.cols,
            (∑ k ∈ Finset.range A.cols, A.entry i k * B.entry k j) * v.getD j 0 =
            ∑ k ∈ Finset.range A.cols, ∑ j ∈ Finset.range B.cols,
              A.entry i k * (B.entry k j * v.getD j 0) := by
          rw [Finset.sum_comm]
          apply Finset.sum_congr rfl
          intro j _
          rw [Finset.sum_mul]
          apply Finset.sum_congr rfl
          intro k _
          ring
        _ = ∑ k ∈ Finset.range A.cols,
            A.entry i k * ((List.range B.rows).map fun r =>
              ∑ j ∈ Finset.range B.cols, B.entry r j * v.getD j 0).getD k 0 := by
          apply Finset.sum_congr rfl
          intro k hk
          rw [← Finset.mul_sum, getD_map_range,
            if_pos (hab ▸ Finset.mem_range.mp hk)]
    · rw [npDotVec_eq_none hv, npDotVec_eq_none (show (⟨A.rows, B.cols, _⟩ : NPMatrix α).cols ≠ v.length from hv)]
      rfl
  · cases hC

end BasicLemmas

section DenseClaims

variable {α : Type} [CommRing α]

/-- C2 (counterexample): with `A = X` and `B = Z` (1 qubit each), the gate
`A + B` applied to `|0>` is `X·Z|0> = |1>`, while `B.apply(A.apply(|0>))` is
`Z(X|0>) = -|1>`; the claim's right-to-left order `B_matrix · A_matrix` is not
what `MGate.__add__` computes. -/
theorem mgate_add_order_cex :
    ¬ ((Xgate.add Zgate).bind (fun g => g.apply e0reg) =
       (Xgate.apply e0reg).bind (fun r => Zgate.apply r)) := by
  decide

/-- C2 (amended): `A + B` is the dense gate with matrix
`A_matrix · B_matrix` (the *left-to-right* matmul the source performs), hence
the **right** operand acts first: `(A + B).apply R = A.apply (B.apply R)`. -/
theorem mgate_add_applies_right_operand_first (A B : MGate α)
    (hA : A.WF) (hB : B.WF) (hk : A.qreg_size = B.qreg_size) :
    ∃ g, A.add B = some g ∧ npMatmul A.matrix B.matrix = some g.matrix ∧
      g.qreg_size = A.qreg_size ∧
      ∀ r : QReg α, g.apply r = (B.apply r).bind (fun r2 => A.apply r2) := by
  have hAB : A.matrix.cols = B.matrix.rows := by
    rw [← hA.1, ← hA.2, ← hB.2, hk]
  have hmm := npMatmul_eq_some (α := α) hAB
  refine ⟨⟨⟨A.matrix.rows, B.matrix.cols, fun i k =>
    ∑ j ∈ Finset.range A.matrix.cols, A.matrix.entry i j * B.matrix.entry j k⟩,
    A.qreg_size⟩, ?_, ?_, rfl, ?_⟩
  · show (npMatmul A.matrix B.matrix).bind _ = _
    rw [hmm, Option.some_bind]
    exact MGate.make_of_wf (by rw [← hA.2, ← hB.1, ← hB.2, hk]) hA.2
  · exact hmm
  · intro r
    show (npDotVec _ r.state).bind _ = _
    rw [npDotVec_npMatmul hmm r.state]
    show ((npDotVec B.matrix r.state).bind _).bind _ =
      ((npDotVec B.matrix r.state).bind _).bind _
    cases npDotVec B.matrix r.state with
    | none => rfl
    | some w => rfl

/-- C2 (witness): the amended composition law at `A = X`, `B = Z`, `R = |0>`. -/
theorem mgate_add_applies_right_operand_first_witness :
    ∃ g : MGate ℤ, Xgate.add Zgate = some g ∧
      g.apply e0reg = (Zgate.apply e0reg).bind (fun r2 => Xgate.apply r2) := by
  obtain ⟨g, h1, _, _, h4⟩ :=
    mgate_add_applies_right_operand_first Xgate Zgate ⟨rfl, rfl⟩ ⟨rfl, rfl⟩ rfl
  exact ⟨g, h1, h4 e0reg⟩

/-- C3 (counterexample): `X**3` is an 8×8 three-qubit gate (Kronecker power),
so applying it to the 1-qubit register `|0>` fails, while the triple
application `X(X(X|0>))` succeeds. -/
theorem mgate_pow_cex :
    ¬ ((Xgate.pow 3).bind (fun g => g.apply e0reg) =
       (Xgate.apply e0reg).bind (fun r1 =>
         (Xgate.apply r1).bind (fun r2 => Xgate.apply r2))) := by
  decide

/-- C3 (amended): `A**i` (for `i ≥ 1`) composes `A` with itself `i−1` more
times via the **parallel (Kronecker) composition** `__mul__`, not sequential
composition: it succeeds and yields a well-formed gate of `i * k` qubits;
`A**1` returns `A` itself unchanged. -/
theorem mgate_pow_is_kron_power (A : MGate α) (hA : A.WF) :
    A.pow 1 = some A ∧
    ∀ i, 1 ≤ i → ∃ g, A.pow i = some g ∧
      g.qreg_size = i * A.qreg_size ∧ g.WF := by
  refine ⟨rfl, ?_⟩
  intro i hi
  induction i with
  | zero => omega
  | succ n ih =>
    match n, ih with
    | 0, _ => exact ⟨A, rfl, (Nat.one_mul _).symm, hA⟩
    | Nat.succ m, ih =>
      obtain ⟨g, hg, hsize, hwf⟩ := ih (by omega)
      have hrows : (npKron A.matrix g.matrix).rows = 2 ^ (A.qreg_size + g.qreg_size) := by
        show A.matrix.rows * g.matrix.rows = _
        rw [← hA.2, ← hwf.2, Nat.pow_add]
      have hcols : (npKron A.matrix g.matrix).rows = (npKron A.matrix g.matrix).cols := by
        show A.matrix.rows * g.matrix.rows = A.matrix.cols * g.matrix.cols
        rw [hA.1, hwf.1]
      refine ⟨⟨npKron A.matrix g.matrix, A.qreg_size + g.qreg_size⟩, ?_, ?_, ?_⟩
      · show (A.pow (m + 1)).bind _ = _
        rw [hg, Option.some_bind]
        exact MGate.make_of_wf hcols hrows.symm
      · show A.qreg_size + g.qreg_size = _
        rw [hsize]; ring
      · exact ⟨hcols, hrows.symm⟩

/-- C3 (witness): `X**3` exists, has 3 qubits (not 1), and is well-formed. -/
theorem mgate_pow_is_kron_power_witness :
    ∃ g : MGate ℤ, Xgate.pow 3 = some g ∧
      g.qreg_size = 3 * Xgate.qreg_size ∧ g.WF :=
  (mgate_pow_is_kron_power Xgate ⟨rfl, rfl⟩).2 3 (by decide)

/-- C6: a well-formed dense gate's `apply` fails (numpy's shape error in
`matrix.dot`) exactly when the register's qubit count differs from the gate's,
and otherwise returns a new register of the same qubit count whose state is
the matrix-vector product.  (The input register is never mutated: `apply` is a
pure function of it.) -/
theorem mgate_apply_size_check (g : MGate α) (hg : g.WF) (r : QReg α)
    (hr : r.state.length = 2 ^ r.nbits) :
    (g.apply r = none ↔ r.nbits ≠ g.qreg_size) ∧
    (r.nbits = g.qreg_size →
      g.apply r = some ⟨r.nbits, (List.range (2 ^ g.qreg_size)).map
        fun i => ∑ j ∈ Finset.range (2 ^ g.qreg_size),
          g.matrix.entry i j * r.state.getD j 0⟩) := by
  have hcols : g.matrix.cols = 2 ^ g.qreg_size := by rw [← hg.1, ← hg.2]
  have hrows : g.matrix.rows = 2 ^ g.qreg_size := hg.2.symm
  by_cases h : r.nbits = g.qreg_size
  · have happ : g.apply r = some ⟨r.nbits, (List.range (2 ^ g.qreg_size)).map
        fun i => ∑ j ∈ Finset.range (2 ^ g.qreg_size),
          g.matrix.entry i j * r.state.getD j 0⟩ := by
      show (npDotVec _ _).bind _ = _
      rw [npDotVec_eq_some (by rw [hcols, hr, h]), Option.some_bind, hcols, hrows]
    exact ⟨by rw [happ]; simp [h], fun _ => happ⟩
  · constructor
    · have happ : g.apply r = none := by
        show (npDotVec _ _).bind _ = _
        rw [npDotVec_eq_none, Option.none_bind]
        rw [hcols, hr]
        intro hc
        exact h (Nat.pow_right_injective (Nat.le_refl 2) hc).symm
      simp [happ, h]
    · intro hc
      exact absurd hc h

/-- C6 (witness): the size check at `X` on the matching register `|0>`. -/
theorem mgate_apply_size_check_witness :
    (Xgate.apply e0reg = none ↔ e0reg.nbits ≠ Xgate.qreg_size) ∧
    (e0reg.nbits = Xgate.qreg_size →
      Xgate.apply e0reg = some ⟨e0reg.nbits, (List.range (2 ^ Xgate.qreg_size)).map
        fun i => ∑ j ∈ Finset.range (2 ^ Xgate.qreg_size),
          Xgate.matrix.entry i j * e0reg.state.getD j 0⟩) :=
  mgate_apply_size_check Xgate ⟨rfl, rfl⟩ e0reg (by decide)

/-- C7: `A * B` is the dense gate of qubit count `k1 + k2` whose matrix is the
Kronecker product `A.matrix ⊗ B.matrix`, in that order:
`K[i1·2^k2 + i2, j1·2^k2 + j2] = A[i1,j1] · B[i2,j2]`. -/
theorem mgate_mul_is_kronecker (A B : MGate α) (hA : A.WF) (hB : B.WF) :
    ∃ g, A.mul B = some g ∧ g.qreg_size = A.qreg_size + B.qreg_size ∧
      g.matrix.rows = 2 ^ (A.qreg_size + B.qreg_size) ∧
      ∀ i1 j1 i2 j2, i2 < 2 ^ B.qreg_size → j2 < 2 ^ B.qreg_size →
        g.matrix.entry (i1 * 2 ^ B.qreg_size + i2) (j1 * 2 ^ B.qreg_size + j2) =
          A.matrix.entry i1 j1 * B.matrix.entry i2 j2 := by
  have hrows : (npKron A.matrix B.matrix).rows = 2 ^ (A.qreg_size + B.qreg_size) := by
    show A.matrix.rows * B.matrix.rows = _
    rw [← hA.2, ← hB.2, Nat.pow_add]
  have hcols : (npKron A.matrix B.matrix).rows = (npKron A.matrix B.matrix).cols := by
    show A.matrix.rows * B.matrix.rows = A.matrix.cols * B.matrix.cols
    rw [hA.1, hB.1]
  refine ⟨⟨npKron A.matrix B.matrix, A.qreg_size + B.qreg_size⟩,
    MGate.make_of_wf hcols hrows.symm, rfl, hrows, ?_⟩
  intro i1 j1 i2 j2 hi2 hj2
  show A.matrix.entry _ _ * B.matrix.entry _ _ = _
  have hbr : B.matrix.rows = 2 ^ B.qreg_size := hB.2.symm
  have hbc : B.matrix.cols = 2 ^ B.qreg_size := by rw [← hB.1, hbr]
  have hpos : 0 < 2 ^ B.qreg_size := Nat.pos_pow_of_pos _ (by omega)
  congr 1
  · congr 1
    · rw [hbr, Nat.mul_comm i1, Nat.mul_add_div hpos, Nat.div_eq_of_lt hi2, Nat.add_zero]
    · rw [hbc, Nat.mul_comm j1, Nat.mul_add_div hpos, Nat.div_eq_of_lt hj2, Nat.add_zero]
  · congr 1
    · rw [hbr, Nat.mul_comm i1, Nat.mul_add_mod, Nat.mod_eq_of_lt hi2]
    · rw [hbc, Nat.mul_comm j1, Nat.mul_add_mod, Nat.mod_eq_of_lt hj2]

/-- C7 (witness): the Kronecker law at `A = X`, `B = Z`. -/
theorem mgate_mul_is_kronecker_witness :
    ∃ g : MGate ℤ, Xgate.mul Zgate = some g ∧
      g.qreg_size = Xgate.qreg_size + Zgate.qreg_size ∧
      g.matrix.rows = 2 ^ (Xgate.qreg_size + Zgate.qreg_size) ∧
      ∀ i1 j1 i2 j2, i2 < 2 ^ Zgate.qreg_size → j2 < 2 ^ Zgate.qreg_size →
        g.matrix.entry (i1 * 2 ^ Zgate.qreg_size + i2) (j1 * 2 ^ Zgate.qreg_size + j2) =
          Xgate.matrix.entry i1 j1 * Zgate.matrix.entry i2 j2 :=
  mgate_mul_is_kronecker Xgate Zgate ⟨rfl, rfl⟩ ⟨rfl, rfl⟩

omit [CommRing α] in
/-- C9: applying the "reverse" gate (`LazyNOT.dot`) twice returns the
original state vector exactly — `reverse (reverse s) = s` holds on the nose,
with no numeric tolerance involved. -/
theorem lazy_not_dot_involutive (g : LazyNOT) (state : List α) :
    g.dot (g.dot state) = state :=
  List.reverse_reverse state

end DenseClaims

section LazyBitLemmas

lemma testBit_toNat (b : Bool) (j : Nat) :
    (b.toNat).testBit j = (b && decide (j = 0)) := by
  cases b
  · simp [Nat.zero_testBit]
  · show Nat.testBit 1 j = _
    rw [show (1 : Nat) = 2 ^ 0 from rfl, Nat.testBit_two_pow]
    simp [eq_comm]

/-- `(base & (1 << q)) >> q` extracts bit `q` of `base`. -/
lemma extract_bit (base q : Nat) :
    (base &&& (1 <<< q)) >>> q = (base.testBit q).toNat := by
  apply Nat.eq_of_testBit_eq
  intro j
  rw [Nat.testBit_shiftRight, Nat.testBit_and, Nat.one_shiftLeft, Nat.testBit_two_pow,
    testBit_toNat]
  rcases Nat.eq_zero_or_pos j with hj | hj
  · subst hj; simp
  · have h1 : ¬ (q = q + j) := by omega
    have h2 : ¬ (j = 0) := by omega
    simp [h1, h2]

lemma testBit_foldl_or {β : Type} (g : β → Nat) (l : List β) (a j : Nat) :
    (l.foldl (fun acc x => acc ||| g x) a).testBit j =
      (a.testBit j || l.any fun x => (g x).testBit j) := by
  induction l generalizing a with
  | nil => simp
  | cons x xs ih => simp [List.foldl_cons, ih, Nat.testBit_or, Bool.or_assoc]

lemma testBit_get_qbpos (qbpos : List Nat) (base j : Nat) :
    (get_qbpos qbpos base).testBit j =
      if j < qbpos.length then base.testBit (qbpos.getD (qbpos.length - 1 - j) 0)
      else false := by
  rw [show get_qbpos qbpos base =
      (List.range qbpos.length).foldl
        (fun acc i => acc |||
          ((base &&& (1 <<< qbpos.getD i 0)) >>> qbpos.getD i 0) <<< (qbpos.length - i - 1)) 0
    from rfl]
  rw [testBit_foldl_or
    (fun i => ((base &&& (1 <<< qbpos.getD i 0)) >>> qbpos.getD i 0) <<< (qbpos.length - i - 1))]
  rw [Nat.zero_testBit, Bool.false_or]
  have hterm : ∀ i,
      (((base &&& (1 <<< qbpos.getD i 0)) >>> qbpos.getD i 0) <<< (qbpos.length - i - 1)).testBit j
        = (decide (j ≥ qbpos.length - i - 1) &&
            (base.testBit (qbpos.getD i 0) && decide (j - (qbpos.length - i - 1) = 0))) := by
    intro i
    rw [Nat.testBit_shiftLeft, extract_bit, testBit_toNat]
  by_cases hj : j < qbpos.length
  · rw [if_pos hj]
    rcases hb : base.testBit (qbpos.getD (qbpos.length - 1 - j) 0) with _ | _
    · apply List.any_eq_false.mpr
      intro i hi hcon
      rw [List.mem_range] at hi
      rw [hterm i] at hcon
      simp only [Bool.and_eq_true, decide_eq_true_eq] at hcon
      obtain ⟨h1, hbit, h2⟩ := hcon
      have hij : i = qbpos.length - 1 - j := by omega
      rw [hij, hb] at hbit
      cases hbit
    · apply List.any_eq_true.mpr
      refine ⟨qbpos.length - 1 - j, List.mem_range.mpr (by omega), ?_⟩
      rw [hterm]
      have harith : qbpos.length - (qbpos.length - 1 - j) - 1 = j := by omega
      rw [harith, hb]
      simp
  · rw [if_neg hj]
    apply List.any_eq_false.mpr
    intro i hi hcon
    rw [List.mem_range] at hi
    rw [hterm i] at hcon
    simp only [Bool.and_eq_true, decide_eq_true_eq] at hcon
    obtain ⟨h1, _, h2⟩ := hcon
    omega

lemma testBit_get_spectator (specpos : List Nat)
    (hmono : ∀ i, i < specpos.length → i ≤ specpos.getD i 0) (base j : Nat) :
    (get_spectator specpos base).testBit j =
      if j < specpos.length then base.testBit (specpos.getD j 0) else false := by
  rw [show get_spectator specpos base =
      (List.range specpos.length).foldl
        (fun acc i => acc |||
          ((base &&& (1 <<< specpos.getD i 0)) >>> (specpos.getD i 0 - i))) 0
    from rfl]
  rw [testBit_foldl_or
    (fun i => ((base &&& (1 <<< specpos.getD i 0)) >>> (specpos.getD i 0 - i)))]
  rw [Nat.zero_testBit, Bool.false_or]
  have hterm : ∀ i, i < specpos.length →
      (((base &&& (1 <<< specpos.getD i 0)) >>> (specpos.getD i 0 - i))).testBit j
        = (decide (i = j) && base.testBit (specpos.getD i 0)) := by
    intro i hi
    rw [Nat.testBit_shiftRight, Nat.testBit_and, Nat.one_shiftLeft, Nat.testBit_two_pow]
    have hq := hmono i hi
    by_cases hij : i = j
    · subst hij
      rw [Nat.sub_add_cancel hq]
      simp
    · have h1 : ¬ (specpos.getD i 0 = specpos.getD i 0 - i + j) := by omega
      rw [decide_eq_false h1, decide_eq_false hij, Bool.and_false, Bool.false_and]
  by_cases hj : j < specpos.length
  · rw [if_pos hj]
    rcases hb : base.testBit (specpos.getD j 0) with _ | _
    · apply List.any_eq_false.mpr
      intro i hi hcon
      rw [List.mem_range] at hi
      rw [hterm i hi] at hcon
      simp only [Bool.and_eq_true, decide_eq_true_eq] at hcon
      obtain ⟨h1, hbit⟩ := hcon
      rw [h1, hb] at hbit
      cases hbit
    · apply List.any_eq_true.mpr
      refine ⟨j, List.mem_range.mpr hj, ?_⟩
      rw [hterm j hj, hb]
      simp
  · rw [if_neg hj]
    apply List.any_eq_false.mpr
    intro i hi hcon
    rw [List.mem_range] at hi
    rw [hterm i hi] at hcon
    simp only [Bool.and_eq_true, decide_eq_true_eq] at hcon
    omega

lemma get_qbpos_lt (qbpos : List Nat) (base : Nat) :
    get_qbpos qbpos base < 2 ^ qbpos.length := by
  apply Nat.lt_pow_two_of_testBit
  intro i hi
  rw [testBit_get_qbpos, if_neg (by omega)]

lemma get_spectator_lt (specpos : List Nat)
    (hmono : ∀ i, i < specpos.length → i ≤ specpos.getD i 0) (base : Nat) :
    get_spectator specpos base < 2 ^ specpos.length := by
  apply Nat.lt_pow_two_of_testBit
  intro i hi
  rw [testBit_get_spectator specpos hmono, if_neg (by omega)]

end LazyBitLemmas

section SpecposLemmas

lemma specposOf_sorted (qbpos : List Nat) (n : Nat) :
    (specposOf qbpos n).Pairwise (· < ·) := by
  apply List.Pairwise.filter
  rw [List.range_eq_range']
  exact List.pairwise_lt_range' 0 n

lemma specposOf_nodup (qbpos : List Nat) (n : Nat) : (specposOf qbpos n).Nodup :=
  (List.nodup_range n).filter _

lemma mem_specposOf (qbpos : List Nat) (n x : Nat) :
    x ∈ specposOf qbpos n ↔ x < n ∧ x ∉ qbpos := by
  simp [specposOf, List.mem_filter, List.mem_range]

lemma sorted_le_getD (l : List Nat) (hsort : l.Pairwise (· < ·)) :
    ∀ i, i < l.length → i ≤ l.getD i 0 := by
  intro i
  induction i with
  | zero => intro _; exact Nat.zero_le _
  | succ k ih =>
    intro hi
    have hk : k < l.length := by omega
    have h1 := ih hk
    have h2 : l.getD k 0 < l.getD (k + 1) 0 := by
      rw [List.getD_eq_getElem _ _ hk, List.getD_eq_getElem _ _ hi]
      exact (List.pairwise_iff_getElem.mp hsort) k (k + 1) hk hi (by omega)
    omega

lemma specposOf_mono (qbpos : List Nat) (n : Nat) :
    ∀ i, i < (specposOf qbpos n).length → i ≤ (specposOf qbpos n).getD i 0 :=
  sorted_le_getD _ (specposOf_sorted qbpos n)

lemma specposOf_length (qbpos : List Nat) (n : Nat) (hnd : qbpos.Nodup)
    (hbd : ∀ q ∈ qbpos, q < n) :
    (specposOf qbpos n).length = n - qbpos.length := by
  have h1 : ∀ l : List Nat, l.length =
      (l.filter (fun x => decide (x ∈ qbpos))).length +
        (l.filter (fun x => !decide (x ∈ qbpos))).length := by
    intro l
    induction l with
    | nil => rfl
    | cons x xs ih =>
      by_cases hx : x ∈ qbpos <;> simp [List.filter_cons, hx, ih] <;> omega
  have h1 := h1 (List.range n)
  have h2 : ((List.range n).filter (fun x => decide (x ∈ qbpos))).length = qbpos.length := by
    apply List.Perm.length_eq
    apply List.perm_of_nodup_nodup_toFinset_eq ((List.nodup_range n).filter _) hnd
    ext y
    simp only [List.mem_toFinset, List.mem_filter, List.mem_range, decide_eq_true_eq]
    exact ⟨fun h => h.2, fun h => ⟨hbd y h, h⟩⟩
  rw [List.length_range] at h1
  show ((List.range n).filter (fun x => !decide (x ∈ qbpos))).length = n - qbpos.length
  omega

lemma qbpos_length_le (qbpos : List Nat) (n : Nat) (hnd : qbpos.Nodup)
    (hbd : ∀ q ∈ qbpos, q < n) : qbpos.length ≤ n := by
  have h1 : qbpos.toFinset ⊆ Finset.range n := by
    intro x hx
    rw [List.mem_toFinset] at hx
    rw [Finset.mem_range]
    exact hbd x hx
  have h2 := Finset.card_le_card h1
  rw [List.toFinset_card_of_nodup hnd, Finset.card_range] at h2
  exact h2

/-- A duplicate-free list of `N` naturals below `N` is a permutation of
`range N`. -/
lemma perm_range_of_nodup (l : List Nat) (N : Nat) (h1 : l.Nodup)
    (h2 : ∀ x ∈ l, x < N) (h3 : l.length = N) : l.Perm (List.range N) := by
  apply List.perm_of_nodup_nodup_toFinset_eq h1 (List.nodup_range N)
  apply Finset.eq_of_subset_of_card_le
  · intro x hx
    rw [List.mem_toFinset] at hx
    rw [List.mem_toFinset, List.mem_range]
    exact h2 x hx
  · rw [List.toFinset_card_of_nodup h1,
      List.toFinset_card_of_nodup (List.nodup_range N), List.length_range, h3]

/-- Distinct in-range target positions: two basis indices agreeing on both the
spectator key and the target key are equal. -/
lemma key_inj (qbpos : List Nat) (n : Nat) (hnd : qbpos.Nodup)
    (hbd : ∀ q ∈ qbpos, q < n) (b1 b2 : Nat) (hb1 : b1 < 2 ^ n) (hb2 : b2 < 2 ^ n)
    (hsp : get_spectator (specposOf qbpos n) b1 = get_spectator (specposOf qbpos n) b2)
    (hqb : get_qbpos qbpos b1 = get_qbpos qbpos b2) : b1 = b2 := by
  apply Nat.eq_of_testBit_eq
  intro p
  by_cases hp : p < n
  · by_cases hq : p ∈ qbpos
    · obtain ⟨i, hi, hqi⟩ := List.getElem_of_mem hq
      have hgd : qbpos.getD i 0 = p := by rw [List.getD_eq_getElem _ _ hi, hqi]
      have key : ∀ b : Nat, b.testBit p = (get_qbpos qbpos b).testBit (qbpos.length - 1 - i) := by
        intro b
        rw [testBit_get_qbpos, if_pos (by omega)]
        have harith : qbpos.length - 1 - (qbpos.length - 1 - i) = i := by omega
        rw [harith, hgd]
      rw [key b1, key b2, hqb]
    · have hmem : p ∈ specposOf qbpos n := (mem_specposOf qbpos n p).mpr ⟨hp, hq⟩
      obtain ⟨i, hi, hqi⟩ := List.getElem_of_mem hmem
      have hgd : (specposOf qbpos n).getD i 0 = p := by
        rw [List.getD_eq_getElem _ _ hi, hqi]
      have key : ∀ b : Nat, b.testBit p =
          (get_spectator (specposOf qbpos n) b).testBit i := by
        intro b
        rw [testBit_get_spectator _ (specposOf_mono qbpos n), if_pos hi, hgd]
      rw [key b1, key b2, hsp]
  · have h1 : b1 < 2 ^ p :=
      Nat.lt_of_lt_of_le hb1 (Nat.pow_le_pow_right (by omega) (by omega))
    have h2 : b2 < 2 ^ p :=
      Nat.lt_of_lt_of_le hb2 (Nat.pow_le_pow_right (by omega) (by omega))
    rw [Nat.testBit_lt_two_pow h1, Nat.testBit_lt_two_pow h2]

end SpecposLemmas

section SortLemmas

lemma lazy_init_bases_eq {α : Type} (M : NPMatrix α) (qbpos : List Nat) (n : Nat) :
    (LazyGate.init M qbpos n).bases =
      chunkSort (get_qbpos qbpos) (2 ^ qbpos.length) (lazyStage1 qbpos n) := rfl

lemma chunkSort_perm (key : Nat → Nat) (m : Nat) (l : List Nat) :
    (chunkSort key m l).Perm l := by
  generalize hn : l.length = n
  induction n using Nat.strong_induction_on generalizing l with
  | _ n ih =>
    match l with
    | [] => rw [chunkSort]
    | x :: xs =>
      rw [chunkSort]
      by_cases hm : m = 0
      · rw [if_pos hm]
      · rw [if_neg hm]
        have hlen : (x :: xs).length = n := hn
        have hlt : ((x :: xs).drop m).length < n := by
          rw [List.length_drop]
          simp only [List.length_cons] at hlen ⊢
          omega
        have hrec := ih _ hlt ((x :: xs).drop m) rfl
        exact ((List.mergeSort_perm _ _).append hrec).trans
          (List.Perm.of_eq (List.take_append_drop m (x :: xs)))

lemma chunkSort_getD (key : Nat → Nat) (m : Nat) (hm : 0 < m) :
    ∀ (g : Nat) (l : List Nat), m ∣ l.length → ∀ t, t < m → g * m + t < l.length →
      (chunkSort key m l).getD (g * m + t) 0 =
        (((l.drop (g * m)).take m).mergeSort
          (fun a b => decide (key a ≤ key b))).getD t 0 := by
  intro g
  induction g with
  | zero =>
    intro l hdvd t ht hlt
    rw [Nat.zero_mul, Nat.zero_add] at hlt ⊢
    rw [List.drop_zero]
    cases l with
    | nil => simp at hlt
    | cons x xs =>
      have hmle : m ≤ (x :: xs).length := by
        obtain ⟨c, hc⟩ := hdvd
        have hc0 : c ≠ 0 := by
          intro h
          rw [h, Nat.mul_zero] at hc
          simp at hc
        calc m ≤ m * c := Nat.le_mul_of_pos_right m (by omega)
        _ = (x :: xs).length := hc.symm
      rw [chunkSort, if_neg (by omega)]
      rw [List.getD_append]
      rw [List.length_mergeSort, List.length_take]
      omega
  | succ k ihg =>
    intro l hdvd t ht hlt
    cases l with
    | nil => simp at hlt
    | cons x xs =>
      have hmle : m ≤ (x :: xs).length := by
        obtain ⟨c, hc⟩ := hdvd
        have hc0 : c ≠ 0 := by
          intro h
          rw [h, Nat.mul_zero] at hc
          simp at hc
        calc m ≤ m * c := Nat.le_mul_of_pos_right m (by omega)
        _ = (x :: xs).length := hc.symm
      rw [chunkSort, if_neg (by omega)]
      have hfirst : (((x :: xs).take m).mergeSort
          (fun a b => decide (key a ≤ key b))).length = m := by
        rw [List.length_mergeSort, List.length_take]
        omega
      rw [Nat.succ_mul] at hlt ⊢
      rw [List.getD_append_right _ _ _ _ (by omega : (((x :: xs).take m).mergeSort
          (fun a b => decide (key a ≤ key b))).length ≤ k * m + m + t)]
      rw [hfirst]
      have harith : k * m + m + t - m = k * m + t := by omega
      rw [harith]
      have hdvd2 : m ∣ ((x :: xs).drop m).length := by
        rw [List.length_drop]
        obtain ⟨c, hc⟩ := hdvd
        cases c with
        | zero =>
          rw [Nat.mul_zero] at hc
          simp at hc
        | succ c2 =>
          rw [Nat.mul_succ] at hc
          exact ⟨c2, by omega⟩
      have hlt2 : k * m + t < ((x :: xs).drop m).length := by
        rw [List.length_drop]
        omega
      have := ihg ((x :: xs).drop m) hdvd2 t ht hlt2
      rw [this, List.drop_drop]
      have harith2 : m + k * m = k * m + m := by omega
      rw [harith2]

end SortLemmas
section KeyLemmas

lemma lazyKey_div (qbpos : List Nat) (n b : Nat) :
    lazyKey qbpos n b / 2 ^ qbpos.length = get_spectator (specposOf qbpos n) b := by
  unfold lazyKey
  rw [Nat.mul_comm, Nat.mul_add_div (Nat.pos_pow_of_pos _ (by omega)),
    Nat.div_eq_of_lt (get_qbpos_lt qbpos b), Nat.add_zero]

lemma lazyKey_mod (qbpos : List Nat) (n b : Nat) :
    lazyKey qbpos n b % 2 ^ qbpos.length = get_qbpos qbpos b := by
  unfold lazyKey
  rw [Nat.mul_comm, Nat.mul_add_mod, Nat.mod_eq_of_lt (get_qbpos_lt qbpos b)]

lemma lazyKey_lt (qbpos : List Nat) (n : Nat) (hnd : qbpos.Nodup)
    (hbd : ∀ q ∈ qbpos, q < n) (b : Nat) : lazyKey qbpos n b < 2 ^ n := by
  have h1 : get_spectator (specposOf qbpos n) b < 2 ^ (n - qbpos.length) := by
    rw [← specposOf_length qbpos n hnd hbd]
    exact get_spectator_lt _ (specposOf_mono qbpos n) b
  have h2 := get_qbpos_lt qbpos b
  have hm := qbpos_length_le qbpos n hnd hbd
  have h3 : lazyKey qbpos n b < 2 ^ (n - qbpos.length) * 2 ^ qbpos.length := by
    unfold lazyKey
    calc get_spectator (specposOf qbpos n) b * 2 ^ qbpos.length + get_qbpos qbpos b
        < (get_spectator (specposOf qbpos n) b + 1) * 2 ^ qbpos.length := by
          rw [Nat.succ_mul]; omega
    _ ≤ 2 ^ (n - qbpos.length) * 2 ^ qbpos.length :=
          Nat.mul_le_mul_right _ (by omega)
  rwa [← Nat.pow_add, Nat.sub_add_cancel hm] at h3

lemma lazyKey_inj (qbpos : List Nat) (n : Nat) (hnd : qbpos.Nodup)
    (hbd : ∀ q ∈ qbpos, q < n) (b1 b2 : Nat) (hb1 : b1 < 2 ^ n) (hb2 : b2 < 2 ^ n)
    (h : lazyKey qbpos n b1 = lazyKey qbpos n b2) : b1 = b2 := by
  apply key_inj qbpos n hnd hbd b1 b2 hb1 hb2
  · rw [← lazyKey_div qbpos n b1, ← lazyKey_div qbpos n b2, h]
  · rw [← lazyKey_mod qbpos n b1, ← lazyKey_mod qbpos n b2, h]

lemma map_lazyKey_perm (qbpos : List Nat) (n : Nat) (hnd : qbpos.Nodup)
    (hbd : ∀ q ∈ qbpos, q < n) :
    ((List.range (2 ^ n)).map (lazyKey qbpos n)).Perm (List.range (2 ^ n)) := by
  apply perm_range_of_nodup
  · apply List.Nodup.map_on _ (List.nodup_range _)
    intro x hx y hy hxy
    rw [List.mem_range] at hx hy
    exact lazyKey_inj qbpos n hnd hbd x y hx hy hxy
  · intro x hx
    rw [List.mem_map] at hx
    obtain ⟨b, _, rfl⟩ := hx
    exact lazyKey_lt qbpos n hnd hbd b
  · rw [List.length_map, List.length_range]

lemma stage1_perm (qbpos : List Nat) (n : Nat) :
    (lazyStage1 qbpos n).Perm (List.range (2 ^ n)) :=
  List.mergeSort_perm _ _

lemma stage1_length (qbpos : List Nat) (n : Nat) :
    (lazyStage1 qbpos n).length = 2 ^ n := by
  rw [(stage1_perm qbpos n).length_eq, List.length_range]

lemma stage1_map_specKey (qbpos : List Nat) (n : Nat) (hnd : qbpos.Nodup)
    (hbd : ∀ q ∈ qbpos, q < n) :
    (lazyStage1 qbpos n).map (get_spectator (specposOf qbpos n)) =
      (List.range (2 ^ n)).map (fun k => k / 2 ^ qbpos.length) := by
  refine @List.eq_of_perm_of_sorted Nat (· ≤ ·) inferInstance _ _ ?_ ?_ ?_
  · refine ((stage1_perm qbpos n).map _).trans ?_
    have he : (List.range (2 ^ n)).map (get_spectator (specposOf qbpos n)) =
        ((List.range (2 ^ n)).map (lazyKey qbpos n)).map (fun k => k / 2 ^ qbpos.length) := by
      rw [List.map_map]
      exact List.map_congr_left (fun b _ => (lazyKey_div qbpos n b).symm)
    rw [he]
    exact (map_lazyKey_perm qbpos n hnd hbd).map _
  · show List.Pairwise _ _
    apply List.pairwise_map.mpr
    have hs := @List.sorted_mergeSort Nat
      (fun a b =>
        decide (get_spectator (specposOf qbpos n) a ≤ get_spectator (specposOf qbpos n) b))
      (fun a b c hab hbc => by
        simp only [decide_eq_true_eq] at hab hbc ⊢
        omega)
      (fun a b => by
        rcases Nat.le_total (get_spectator (specposOf qbpos n) a)
          (get_spectator (specposOf qbpos n) b) with h | h <;> simp [h])
      (List.range (2 ^ n))
    exact hs.imp (fun hab => by simpa using hab)
  · show List.Pairwise _ _
    apply List.pairwise_map.mpr
    have hp := List.pairwise_lt_range' 0 (2 ^ n)
    rw [← List.range_eq_range'] at hp
    exact hp.imp (fun hab => Nat.div_le_div_right (Nat.le_of_lt hab))

lemma stage1_specKey (qbpos : List Nat) (n : Nat) (hnd : qbpos.Nodup)
    (hbd : ∀ q ∈ qbpos, q < n) (k : Nat) (hk : k < 2 ^ n) :
    get_spectator (specposOf qbpos n) ((lazyStage1 qbpos n).getD k 0) =
      k / 2 ^ qbpos.length := by
  have hlen : (lazyStage1 qbpos n).length = 2 ^ n := stage1_length qbpos n
  have hmap := stage1_map_specKey qbpos n hnd hbd
  have hk1 : k < (lazyStage1 qbpos n).length := by rw [hlen]; exact hk
  have h1 : ((lazyStage1 qbpos n).map (get_spectator (specposOf qbpos n))).getD k 0 =
      get_spectator (specposOf qbpos n) ((lazyStage1 qbpos n).getD k 0) := by
    rw [List.getD_eq_getElem _ _ (by rw [List.length_map]; exact hk1), List.getElem_map,
      List.getD_eq_getElem _ _ hk1]
  have h2 : ((List.range (2 ^ n)).map (fun k => k / 2 ^ qbpos.length)).getD k 0 =
      k / 2 ^ qbpos.length := by
    rw [List.getD_eq_getElem _ _ (by rw [List.length_map, List.length_range]; exact hk),
      List.getElem_map, List.getElem_range]
  rw [← h1, hmap, h2]

end KeyLemmas
section BasesLemmas

lemma map_getD_of_eq (f : Nat → Nat) (l : List Nat) (r : List Nat)
    (hmap : l.map f = r) (k : Nat) (hk : k < l.length) :
    f (l.getD k 0) = r.getD k 0 := by
  subst hmap
  rw [List.getD_eq_getElem _ _ hk,
    List.getD_eq_getElem _ _ (show k < (l.map f).length from by rw [List.length_map]; exact hk),
    List.getElem_map]

lemma sorted_mergeSort_key (key : Nat → Nat) (l : List Nat) :
    (l.mergeSort (fun a b => decide (key a ≤ key b))).Pairwise
      (fun a b => key a ≤ key b) := by
  have hs := @List.sorted_mergeSort Nat (fun a b => decide (key a ≤ key b))
    (fun a b c hab hbc => by
      simp only [decide_eq_true_eq] at hab hbc ⊢
      omega)
    (fun a b => by rcases Nat.le_total (key a) (key b) with h | h <;> simp [h])
    l
  exact hs.imp (fun hab => by simpa using hab)

lemma stage1_nodup (qbpos : List Nat) (n : Nat) : (lazyStage1 qbpos n).Nodup :=
  (stage1_perm qbpos n).nodup_iff.mpr (List.nodup_range _)

lemma stage1_mem_lt (qbpos : List Nat) (n : Nat) (x : Nat)
    (hx : x ∈ lazyStage1 qbpos n) : x < 2 ^ n := by
  have := (stage1_perm qbpos n).mem_iff.mp hx
  rwa [List.mem_range] at this

/-- The permutation table built by `LazyGate.__init__`, position by position:
entry `g * 2^m + t` is the basis index below `2^n` with spectator key `g` and
target key `t`. -/
lemma bases_getD_keys (qbpos : List Nat) (n : Nat) (hnd : qbpos.Nodup)
    (hbd : ∀ q ∈ qbpos, q < n) (k : Nat) (hk : k < 2 ^ n) :
    (chunkSort (get_qbpos qbpos) (2 ^ qbpos.length) (lazyStage1 qbpos n)).getD k 0 < 2 ^ n ∧
    get_spectator (specposOf qbpos n)
      ((chunkSort (get_qbpos qbpos) (2 ^ qbpos.length) (lazyStage1 qbpos n)).getD k 0) =
        k / 2 ^ qbpos.length ∧
    get_qbpos qbpos
      ((chunkSort (get_qbpos qbpos) (2 ^ qbpos.length) (lazyStage1 qbpos n)).getD k 0) =
        k % 2 ^ qbpos.length := by
  have hMpos : 0 < 2 ^ qbpos.length := Nat.pos_pow_of_pos _ (by omega)
  have hmn : qbpos.length ≤ n := qbpos_length_le qbpos n hnd hbd
  have hdvd : 2 ^ qbpos.length ∣ (lazyStage1 qbpos n).length := by
    rw [stage1_length]
    exact Nat.pow_dvd_pow 2 hmn
  have hdm : k / 2 ^ qbpos.length * 2 ^ qbpos.length + k % 2 ^ qbpos.length = k := by
    rw [Nat.mul_comm]
    exact Nat.div_add_mod k (2 ^ qbpos.length)
  have htlt : k % 2 ^ qbpos.length < 2 ^ qbpos.length := Nat.mod_lt _ hMpos
  have hklen : k / 2 ^ qbpos.length * 2 ^ qbpos.length + k % 2 ^ qbpos.length <
      (lazyStage1 qbpos n).length := by
    rw [stage1_length]
    omega
  have hch := chunkSort_getD (get_qbpos qbpos) (2 ^ qbpos.length) hMpos
    (k / 2 ^ qbpos.length) (lazyStage1 qbpos n) hdvd (k % 2 ^ qbpos.length) htlt hklen
  have hidx : k / 2 ^ qbpos.length * 2 ^ qbpos.length + k % 2 ^ qbpos.length = k := hdm
  rw [hidx] at hch
  have hgM : k / 2 ^ qbpos.length * 2 ^ qbpos.length + 2 ^ qbpos.length ≤ 2 ^ n := by
    obtain ⟨c, hc⟩ := Nat.pow_dvd_pow 2 hmn
    have hkc : k / 2 ^ qbpos.length < c := by
      apply Nat.div_lt_of_lt_mul
      rw [← hc]
      exact hk
    calc k / 2 ^ qbpos.length * 2 ^ qbpos.length + 2 ^ qbpos.length
        = (k / 2 ^ qbpos.length + 1) * 2 ^ qbpos.length := by rw [Nat.succ_mul]
    _ ≤ c * 2 ^ qbpos.length := Nat.mul_le_mul_right _ (by omega)
    _ = 2 ^ n := by rw [Nat.mul_comm, ← hc]
  have hchunklen :
      (((lazyStage1 qbpos n).drop (k / 2 ^ qbpos.length * 2 ^ qbpos.length)).take
        (2 ^ qbpos.length)).length = 2 ^ qbpos.length := by
    rw [List.length_take, List.length_drop, stage1_length]
    omega
  have hchunksub :
      (((lazyStage1 qbpos n).drop (k / 2 ^ qbpos.length * 2 ^ qbpos.length)).take
          (2 ^ qbpos.length)).Sublist (lazyStage1 qbpos n) :=
    (List.take_sublist _ _).trans (List.drop_sublist _ _)
  have hchunknd :
      (((lazyStage1 qbpos n).drop (k / 2 ^ qbpos.length * 2 ^ qbpos.length)).take
        (2 ^ qbpos.length)).Nodup :=
    hchunksub.nodup (stage1_nodup qbpos n)
  have hchunklt : ∀ x ∈ ((lazyStage1 qbpos n).drop
      (k / 2 ^ qbpos.length * 2 ^ qbpos.length)).take (2 ^ qbpos.length), x < 2 ^ n :=
    fun x hx => stage1_mem_lt qbpos n x (hchunksub.subset hx)
  have hchunkkey : ∀ x ∈ ((lazyStage1 qbpos n).drop
      (k / 2 ^ qbpos.length * 2 ^ qbpos.length)).take (2 ^ qbpos.length),
      get_spectator (specposOf qbpos n) x = k / 2 ^ qbpos.length := by
    intro x hx
    obtain ⟨j, hj, hjx⟩ := List.getElem_of_mem hx
    have hj' : j < 2 ^ qbpos.length := by
      rw [hchunklen] at hj
      exact hj
    have hgd : (((lazyStage1 qbpos n).drop (k / 2 ^ qbpos.length * 2 ^ qbpos.length)).take
        (2 ^ qbpos.length)).getD j 0 = x := by
      rw [List.getD_eq_getElem _ _ hj]
      exact hjx
    have hs1len : k / 2 ^ qbpos.length * 2 ^ qbpos.length + j < (lazyStage1 qbpos n).length := by
      rw [stage1_length]
      omega
    have hgd2 : (((lazyStage1 qbpos n).drop (k / 2 ^ qbpos.length * 2 ^ qbpos.length)).take
        (2 ^ qbpos.length)).getD j 0 =
        (lazyStage1 qbpos n).getD (k / 2 ^ qbpos.length * 2 ^ qbpos.length + j) 0 := by
      rw [List.getD_eq_getElem _ _ hj, List.getD_eq_getElem _ _ hs1len]
      rw [List.getElem_take, List.getElem_drop]
    rw [← hgd, hgd2]
    rw [stage1_specKey qbpos n hnd hbd _ (by rw [stage1_length] at hs1len; exact hs1len)]
    rw [Nat.mul_comm, Nat.mul_add_div hMpos, Nat.div_eq_of_lt hj', Nat.add_zero]
  have hperm_sorted :
      ((((lazyStage1 qbpos n).drop (k / 2 ^ qbpos.length * 2 ^ qbpos.length)).take
          (2 ^ qbpos.length)).mergeSort
        (fun a b => decide (get_qbpos qbpos a ≤ get_qbpos qbpos b))).Perm
      (((lazyStage1 qbpos n).drop (k / 2 ^ qbpos.length * 2 ^ qbpos.length)).take
        (2 ^ qbpos.length)) :=
    List.mergeSort_perm _ _
  have hmapeq : ((((lazyStage1 qbpos n).drop (k / 2 ^ qbpos.length * 2 ^ qbpos.length)).take
      (2 ^ qbpos.length)).mergeSort
        (fun a b => decide (get_qbpos qbpos a ≤ get_qbpos qbpos b))).map (get_qbpos qbpos) =
      List.range (2 ^ qbpos.length) := by
    refine @List.eq_of_perm_of_sorted Nat (· ≤ ·) inferInstance _ _ ?_ ?_ ?_
    · refine (hperm_sorted.map _).trans ?_
      apply perm_range_of_nodup
      · apply List.Nodup.map_on _ hchunknd
        intro x hx y hy hxy
        exact key_inj qbpos n hnd hbd x y (hchunklt x hx) (hchunklt y hy)
          (by rw [hchunkkey x hx, hchunkkey y hy]) hxy
      · intro x hx
        rw [List.mem_map] at hx
        obtain ⟨b, _, rfl⟩ := hx
        exact get_qbpos_lt qbpos b
      · rw [List.length_map, hchunklen]
    · show List.Pairwise _ _
      apply List.pairwise_map.mpr
      exact sorted_mergeSort_key (get_qbpos qbpos) _
    · show List.Pairwise _ _
      have hp := List.pairwise_lt_range' 0 (2 ^ qbpos.length)
      rw [← List.range_eq_range'] at hp
      exact hp.imp (fun hab => Nat.le_of_lt hab)
  have hslen : k % 2 ^ qbpos.length <
      ((((lazyStage1 qbpos n).drop (k / 2 ^ qbpos.length * 2 ^ qbpos.length)).take
          (2 ^ qbpos.length)).mergeSort
        (fun a b => decide (get_qbpos qbpos a ≤ get_qbpos qbpos b))).length := by
    rw [List.length_mergeSort, hchunklen]
    exact htlt
  have hb := map_getD_of_eq (get_qbpos qbpos) _ _ hmapeq (k % 2 ^ qbpos.length) hslen
  have hrM : (List.range (2 ^ qbpos.length)).getD (k % 2 ^ qbpos.length) 0 =
      k % 2 ^ qbpos.length := by
    rw [List.getD_eq_getElem _ _ (by rw [List.length_range]; exact htlt), List.getElem_range]
  have hmem : ((((lazyStage1 qbpos n).drop (k / 2 ^ qbpos.length * 2 ^ qbpos.length)).take
      (2 ^ qbpos.length)).mergeSort
        (fun a b => decide (get_qbpos qbpos a ≤ get_qbpos qbpos b))).getD
      (k % 2 ^ qbpos.length) 0 ∈
      ((lazyStage1 qbpos n).drop (k / 2 ^ qbpos.length * 2 ^ qbpos.length)).take
        (2 ^ qbpos.length) := by
    rw [List.getD_eq_getElem _ _ hslen]
    exact hperm_sorted.mem_iff.mp (List.getElem_mem hslen)
  refine ⟨?_, ?_, ?_⟩
  · rw [hch]
    exact hchunklt _ hmem
  · rw [hch]
    exact hchunkkey _ hmem
  · rw [hch]
    exact hb.trans hrM

end BasesLemmas
section BasesMore

lemma bases_perm_range (qbpos : List Nat) (n : Nat) :
    (chunkSort (get_qbpos qbpos) (2 ^ qbpos.length) (lazyStage1 qbpos n)).Perm
      (List.range (2 ^ n)) :=
  (chunkSort_perm _ _ _).trans (stage1_perm qbpos n)

lemma bases_length (qbpos : List Nat) (n : Nat) :
    (chunkSort (get_qbpos qbpos) (2 ^ qbpos.length) (lazyStage1 qbpos n)).length = 2 ^ n := by
  rw [(bases_perm_range qbpos n).length_eq, List.length_range]

/-- Each basis index appears in the permutation table exactly at the position
given by its own combined sort key. -/
lemma bases_getD_lazyKey (qbpos : List Nat) (n : Nat) (hnd : qbpos.Nodup)
    (hbd : ∀ q ∈ qbpos, q < n) (b : Nat) (hb : b < 2 ^ n) :
    (chunkSort (get_qbpos qbpos) (2 ^ qbpos.length) (lazyStage1 qbpos n)).getD
      (lazyKey qbpos n b) 0 = b := by
  have hkey := lazyKey_lt qbpos n hnd hbd b
  obtain ⟨hlt, hsp, hqb⟩ := bases_getD_keys qbpos n hnd hbd (lazyKey qbpos n b) hkey
  apply key_inj qbpos n hnd hbd _ b hlt hb
  · rw [hsp, lazyKey_div]
  · rw [hqb, lazyKey_mod]

end BasesMore

section LazyInitClaims

variable {α : Type} [CommRing α]

/-- C5 (counterexample): with target position `5` in a 2-qubit register —
out of range, and also `qreg_size < ...` fails to hold in no other way —
`LazyGate` construction does not fail: it returns a gate, and even `apply`
succeeds on a well-sized register. -/
theorem lazy_init_no_validation_cex :
    (5 ∈ ([5] : List Nat) ∧ ¬ (5 < 2)) ∧
    ((LazyGate.init Xmat [5] 2).applyState [1, 2, 3, 4]).isSome = true := by
  constructor
  · decide
  · have h1 : lazyStage1 [5] 2 = [0, 1, 2, 3] := by
      show (List.range 4).mergeSort _ = _
      rw [show List.range 4 = [0, 1, 2, 3] from rfl]
      apply List.mergeSort_of_sorted
      decide
    have h2 : (LazyGate.init Xmat [5] 2).bases = [0, 1, 2, 3] := by
      rw [lazy_init_bases_eq, h1]
      show chunkSort (get_qbpos [5]) 2 [0, 1, 2, 3] = _
      rw [chunkSort, if_neg (by omega)]
      rw [show ([0, 1, 2, 3] : List Nat).take 2 = [0, 1] from rfl,
        show ([0, 1, 2, 3] : List Nat).drop 2 = [2, 3] from rfl]
      rw [chunkSort, if_neg (by omega)]
      rw [show ([2, 3] : List Nat).take 2 = [2, 3] from rfl,
        show ([2, 3] : List Nat).drop 2 = ([] : List Nat) from rfl]
      rw [chunkSort]
      rw [List.mergeSort_of_sorted (by decide), List.mergeSort_of_sorted (by decide)]
      rfl
    have h3 : LazyGate.init Xmat [5] 2 =
        ⟨2, Xmat, 2, 4, [5], specposOf [5] 2, [0, 1, 2, 3]⟩ := by
      rw [show LazyGate.init Xmat [5] 2 =
        ⟨2, Xmat, 2, 4, [5], specposOf [5] 2, (LazyGate.init Xmat [5] 2).bases⟩ from rfl, h2]
    rw [h3]
    decide

omit [CommRing α] in
/-- C5 (amended): `LazyGate.__init__` performs no validation whatsoever: for
any matrix, target list and register size — including out-of-range or
duplicate positions, `qreg_size < len(qbpos)`, or a matrix of the wrong
dimension — it succeeds and returns a fully-built gate storing the arguments
unchanged, with a permutation table over `0..2^qreg_size - 1`. -/
theorem lazy_init_no_validation (M : NPMatrix α) (qbpos : List Nat) (n : Nat) :
    (LazyGate.init M qbpos n).matrix = M ∧
    (LazyGate.init M qbpos n).qreg_size = n ∧
    (LazyGate.init M qbpos n).qbpos = qbpos ∧
    (LazyGate.init M qbpos n).msize = 2 ^ qbpos.length ∧
    ((LazyGate.init M qbpos n).bases).Perm (List.range (2 ^ n)) :=
  ⟨rfl, rfl, rfl, rfl, bases_perm_range qbpos n⟩

omit [CommRing α] in
/-- C10: for distinct in-range target positions, the precomputed index table
`bases` is a permutation of `0..2^n - 1` (hence `apply` writes every output
index exactly once and reads every input amplitude exactly once). -/
theorem lazy_bases_is_permutation (M : NPMatrix α) (qbpos : List Nat) (n : Nat)
    (hnd : qbpos.Nodup) (hbd : ∀ q ∈ qbpos, q < n) :
    ((LazyGate.init M qbpos n).bases).Perm (List.range (2 ^ n)) := by
  rw [lazy_init_bases_eq]
  exact bases_perm_range qbpos n

/-- C10 (witness): the table of the lazy `NOT` on qubit 1 of 2 is a
permutation of `0..3`. -/
theorem lazy_bases_is_permutation_witness :
    ((LazyGate.init Xmat [1] 2).bases).Perm (List.range (2 ^ 2)) :=
  lazy_bases_is_permutation Xmat [1] 2 (by decide) (by decide)

end LazyInitClaims
section OracleLemmas

lemma natOfBits_append_bit (s : List Bool) (b : Bool) :
    natOfBits (s ++ [b]) = 2 * natOfBits s + b.toNat := by
  unfold natOfBits
  rw [List.foldl_append]
  rfl

lemma natOfBits_lt (s : List Bool) : natOfBits s < 2 ^ s.length := by
  induction s using List.reverseRecOn with
  | nil => decide
  | append_singleton l b ih =>
    rw [natOfBits_append_bit, List.length_append, List.length_singleton, Nat.pow_succ]
    have hb : b.toNat ≤ 1 := Bool.toNat_le b
    omega

lemma bitsOfNat_natOfBits (s : List Bool) :
    bitsOfNat s.length (natOfBits s) = s := by
  induction s using List.reverseRecOn with
  | nil => rfl
  | append_singleton l b ih =>
    rw [natOfBits_append_bit, List.length_append, List.length_singleton]
    show bitsOfNat (l.length + 1) (2 * natOfBits l + b.toNat) = l ++ [b]
    rw [bitsOfNat]
    have hb : b.toNat ≤ 1 := Bool.toNat_le b
    have hdiv : (2 * natOfBits l + b.toNat) / 2 = natOfBits l := by omega
    have hmod : (2 * natOfBits l + b.toNat) % 2 = b.toNat := by omega
    rw [hdiv, hmod, ih]
    cases b <;> rfl

lemma bitsOfNat_length (L i : Nat) : (bitsOfNat L i).length = L := by
  induction L generalizing i with
  | zero => rfl
  | succ L2 ih => rw [bitsOfNat, List.length_append, List.length_singleton, ih]

lemma natOfBits_bitsOfNat (L : Nat) : ∀ i, i < 2 ^ L → natOfBits (bitsOfNat L i) = i := by
  induction L with
  | zero =>
    intro i hi
    interval_cases i
    rfl
  | succ L2 ih =>
    intro i hi
    rw [bitsOfNat, natOfBits_append_bit]
    have hdiv : i / 2 < 2 ^ L2 := by
      rw [Nat.pow_succ] at hi
      omega
    rw [ih (i / 2) hdiv]
    rcases Nat.mod_two_eq_zero_or_one i with h | h <;> rw [h] <;> simp <;> omega

lemma range'_two (c : Nat) : ∀ s : Nat, List.range' s c 2 = (List.range c).map (fun i => s + 2 * i) := by
  induction c with
  | zero => intro s; rfl
  | succ c2 ih =>
    intro s
    rw [List.range'_succ, ih (s + 2), List.range_succ_eq_map, List.map_cons, List.map_map]
    congr 1
    apply List.map_congr_left
    intro a _
    show s + 2 + 2 * a = s + 2 * (a + 1)
    omega

lemma zip_self {γ : Type} (l : List γ) : l.zip l = l.map (fun x => (x, x)) := by
  induction l with
  | nil => rfl
  | cons x xs ih => rw [List.zip_cons_cons, List.map_cons, ih]

lemma oracle_pairs_eq (L : Nat) :
    ((List.range (2 ^ L)).map (bitsOfNat L)).zip (List.range' 0 (2 ^ L) 2) =
      (List.range (2 ^ L)).map (fun i => (bitsOfNat L i, 2 * i)) := by
  rw [range'_two]
  have h2 : (List.range (2 ^ L)).map (fun i => 0 + 2 * i) =
      (List.range (2 ^ L)).map (fun i => 2 * i) :=
    List.map_congr_left (fun a _ => by omega)
  rw [h2, List.zip_map, zip_self, List.map_map]
  rfl

end OracleLemmas
section OracleFold

variable {α : Type} [CommRing α]

lemma oracle_fold_shape (fdef : List (List Bool)) (L : Nat) :
    ∀ (l : List Nat) (M0 : NPMatrix α),
      ((l.foldl (oracleStep fdef L) M0).rows = M0.rows ∧
       (l.foldl (oracleStep fdef L) M0).cols = M0.cols) := by
  intro l
  induction l with
  | nil => intro M0; exact ⟨rfl, rfl⟩
  | cons x xs ih =>
    intro M0
    rw [List.foldl_cons]
    refine ⟨(ih _).1.trans ?_, (ih _).2.trans ?_⟩ <;>
      (unfold oracleStep; split <;> rfl)

lemma oracleStep_entry (fdef : List (List Bool)) (L : Nat) (M0 : NPMatrix α)
    (x r c' : Nat) (hx : x < 2 ^ L) :
    (oracleStep fdef L M0 x).entry r c' =
      if c' / 2 = x ∧ r = (if bitsOfNat L (c' / 2) ∈ fdef
          then (if c' % 2 = 0 then c' + 1 else c' - 1) else c')
      then (1 : α) else M0.entry r c' := by
  have hnb : natOfBits (bitsOfNat L x) = x := natOfBits_bitsOfNat L x hx
  have ha : natOfBits (bitsOfNat L x ++ [true]) = 2 * x + 1 := by
    rw [natOfBits_append_bit, hnb]; rfl
  have hb2 : natOfBits (bitsOfNat L x ++ [false]) = 2 * x := by
    rw [natOfBits_append_bit, hnb]; rfl
  unfold oracleStep
  by_cases hcx : c' / 2 = x
  · rw [hcx]
    by_cases hacc : bitsOfNat L x ∈ fdef
    · rw [if_pos hacc]
      show (if r = natOfBits (bitsOfNat L x ++ [false]) ∧ c' = 2 * x + 1 then (1 : α)
            else if r = natOfBits (bitsOfNat L x ++ [true]) ∧ c' = 2 * x then 1
            else M0.entry r c') = _
      rw [ha, hb2, if_pos hacc]
      split_ifs <;> first | rfl | omega
    · rw [if_neg hacc]
      show (if r = natOfBits (bitsOfNat L x ++ [true]) ∧ c' = 2 * x + 1 then (1 : α)
            else if r = natOfBits (bitsOfNat L x ++ [false]) ∧ c' = 2 * x then 1
            else M0.entry r c') = _
      rw [ha, hb2, if_neg hacc]
      split_ifs <;> first | rfl | omega
  · by_cases hacc : bitsOfNat L x ∈ fdef
    · rw [if_pos hacc]
      show (if r = natOfBits (bitsOfNat L x ++ [false]) ∧ c' = 2 * x + 1 then (1 : α)
            else if r = natOfBits (bitsOfNat L x ++ [true]) ∧ c' = 2 * x then 1
            else M0.entry r c') =
        if c' / 2 = x ∧ r = (if bitsOfNat L (c' / 2) ∈ fdef
            then (if c' % 2 = 0 then c' + 1 else c' - 1) else c')
        then (1 : α) else M0.entry r c'
      rw [ha, hb2]
      split_ifs <;> first | rfl | omega
    · rw [if_neg hacc]
      show (if r = natOfBits (bitsOfNat L x ++ [true]) ∧ c' = 2 * x + 1 then (1 : α)
            else if r = natOfBits (bitsOfNat L x ++ [false]) ∧ c' = 2 * x then 1
            else M0.entry r c') =
        if c' / 2 = x ∧ r = (if bitsOfNat L (c' / 2) ∈ fdef
            then (if c' % 2 = 0 then c' + 1 else c' - 1) else c')
        then (1 : α) else M0.entry r c'
      rw [ha, hb2]
      split_ifs <;> first | rfl | omega

lemma oracle_fold_entry (fdef : List (List Bool)) (L : Nat) :
    ∀ (l : List Nat) (M0 : NPMatrix α) (r c' : Nat), (∀ i ∈ l, i < 2 ^ L) →
      (l.foldl (oracleStep fdef L) M0).entry r c' =
      if c' / 2 ∈ l then
        (if r = (if bitsOfNat L (c' / 2) ∈ fdef
                 then (if c' % 2 = 0 then c' + 1 else c' - 1) else c')
         then (1 : α) else M0.entry r c')
      else M0.entry r c' := by
  intro l
  induction l with
  | nil =>
    intro M0 r c' _
    simp
  | cons x xs ih =>
    intro M0 r c' hbd
    rw [List.foldl_cons, ih _ r c' (fun i hi => hbd i (List.mem_cons_of_mem x hi)),
      oracleStep_entry fdef L M0 x r c' (hbd x (List.mem_cons_self x xs))]
    by_cases hmem : c' / 2 ∈ xs
    · rw [if_pos hmem, if_pos (List.mem_cons_of_mem x hmem)]
      by_cases hr : r = (if bitsOfNat L (c' / 2) ∈ fdef
          then (if c' % 2 = 0 then c' + 1 else c' - 1) else c')
      · rw [if_pos hr, if_pos hr]
      · rw [if_neg hr, if_neg hr,
          if_neg (show ¬ (c' / 2 = x ∧ r = (if bitsOfNat L (c' / 2) ∈ fdef
            then (if c' % 2 = 0 then c' + 1 else c' - 1) else c'))
            from fun hcon => hr hcon.2)]
    · rw [if_neg hmem]
      by_cases hx : c' / 2 = x
      · rw [if_pos (show c' / 2 ∈ x :: xs by rw [hx]; exact List.mem_cons_self x xs)]
        by_cases hr : r = (if bitsOfNat L (c' / 2) ∈ fdef
            then (if c' % 2 = 0 then c' + 1 else c' - 1) else c')
        · rw [if_pos (show c' / 2 = x ∧ r = (if bitsOfNat L (c' / 2) ∈ fdef
            then (if c' % 2 = 0 then c' + 1 else c' - 1) else c') from ⟨hx, hr⟩),
            if_pos hr]
        · rw [if_neg (show ¬ (c' / 2 = x ∧ r = (if bitsOfNat L (c' / 2) ∈ fdef
            then (if c' % 2 = 0 then c' + 1 else c' - 1) else c'))
            from fun hcon => hr hcon.2), if_neg hr]
      · rw [if_neg (show ¬ (c' / 2 = x ∧ r = (if bitsOfNat L (c' / 2) ∈ fdef
            then (if c' % 2 = 0 then c' + 1 else c' - 1) else c'))
            from fun hcon => hx hcon.1),
          if_neg (show ¬ (c' / 2 ∈ x :: xs)
            from fun hcon => (List.mem_cons.mp hcon).elim hx hmem)]

end OracleFold
section OracleClaim

variable {α : Type} [CommRing α]

lemma oracle_apply_basis (N : Nat) (Mx : NPMatrix α) (hrows : Mx.rows = N)
    (hcols : Mx.cols = N) (c0 t : Nat) (hc0 : c0 < N)
    (hentry : ∀ r, r < N → Mx.entry r c0 = if r = t then 1 else 0) :
    npDotVec Mx ((List.range N).map (fun j => if j = c0 then (1 : α) else 0)) =
      some ((List.range N).map (fun j => if j = t then (1 : α) else 0)) := by
  rw [npDotVec_eq_some (by rw [hcols, List.length_map, List.length_range])]
  congr 1
  rw [hrows, hcols]
  apply List.map_congr_left
  intro r hr
  have h1 : ∀ j ∈ Finset.range N, Mx.entry r j *
      ((List.range N).map (fun j => if j = c0 then (1 : α) else 0)).getD j 0 =
      if j = c0 then Mx.entry r j else 0 := by
    intro j hj
    rw [getD_map_range, if_pos (Finset.mem_range.mp hj)]
    by_cases hjc : j = c0 <;> simp [hjc]
  rw [Finset.sum_congr rfl h1,
    Finset.sum_ite_eq' (Finset.range N) c0 (fun j => Mx.entry r j),
    if_pos (Finset.mem_range.mpr hc0)]
  exact hentry r (List.mem_range.mp hr)

/-- C4: for accepted bit-strings of equal length `L`, the oracle builder
returns a dense gate over `L+1` qubits mapping basis `x·b` to `x·(1-b)` when
`x` is accepted and to itself otherwise (basis labels in index order, per the
register collaborator's `bases`). -/
theorem construct_unitary_F_oracle (fdef : List (List Bool)) (L : Nat)
    (hne : fdef ≠ []) (hlen : ∀ s ∈ fdef, s.length = L)
    (x : List Bool) (hx : x.length = L) (b : Bool) :
    ∃ g : MGate α, construct_unitary_F fdef none = some g ∧ g.qreg_size = L + 1 ∧
      g.apply (basisReg (L + 1) (natOfBits (x ++ [b]))) =
        some (basisReg (L + 1) (natOfBits (x ++ [if x ∈ fdef then !b else b]))) := by
  cases fdef with
  | nil => exact absurd rfl hne
  | cons f rest =>
    have hfL : f.length = L := hlen f (List.mem_cons_self f rest)
    subst hfL
    have hcf : construct_unitary_F (α := α) (f :: rest) none =
        MGate.make ((List.range (2 ^ f.length)).foldl (oracleStep (f :: rest) f.length)
          ⟨2 ^ (f.length + 1), 2 ^ (f.length + 1), fun _ _ => 0⟩) (f.length + 1) := by
      show MGate.make
          ((((List.range (2 ^ f.length)).map (bitsOfNat f.length)).zip
            (List.range' 0 (2 ^ f.length) 2)).foldl
            (fun M p =>
              if p.1 ∈ f :: rest then
                (M.setEntry (natOfBits (p.1 ++ [true])) p.2 1).setEntry
                  (natOfBits (p.1 ++ [false])) (p.2 + 1) 1
              else
                (M.setEntry (natOfBits (p.1 ++ [false])) p.2 1).setEntry
                  (natOfBits (p.1 ++ [true])) (p.2 + 1) 1)
            ⟨2 ^ (f.length + 1), 2 ^ (f.length + 1), fun _ _ => 0⟩) (f.length + 1) = _
      rw [oracle_pairs_eq, List.foldl_map]
      rfl
    have hshape := oracle_fold_shape (f :: rest) f.length (List.range (2 ^ f.length))
      (⟨2 ^ (f.length + 1), 2 ^ (f.length + 1), fun _ _ => 0⟩ : NPMatrix α)
    have hmk : MGate.make ((List.range (2 ^ f.length)).foldl (oracleStep (f :: rest) f.length)
          (⟨2 ^ (f.length + 1), 2 ^ (f.length + 1), fun _ _ => 0⟩ : NPMatrix α)) (f.length + 1) =
        some ⟨(List.range (2 ^ f.length)).foldl (oracleStep (f :: rest) f.length)
          (⟨2 ^ (f.length + 1), 2 ^ (f.length + 1), fun _ _ => 0⟩ : NPMatrix α), f.length + 1⟩ :=
      MGate.make_of_wf (by rw [hshape.1, hshape.2]) (by rw [hshape.1])
    refine ⟨_, by rw [hcf, hmk], rfl, ?_⟩
    have hc0lt : natOfBits (x ++ [b]) < 2 ^ (f.length + 1) := by
      have h := natOfBits_lt (x ++ [b])
      rwa [List.length_append, hx, List.length_singleton] at h
    have htlt : natOfBits (x ++ [if x ∈ f :: rest then !b else b]) < 2 ^ (f.length + 1) := by
      have h := natOfBits_lt (x ++ [if x ∈ f :: rest then !b else b])
      rwa [List.length_append, hx, List.length_singleton] at h
    have hsplit : natOfBits (x ++ [b]) = 2 * natOfBits x + b.toNat := natOfBits_append_bit x b
    have hdiv : natOfBits (x ++ [b]) / 2 = natOfBits x := by
      cases b
      · rw [hsplit, Bool.toNat_false]
        omega
      · rw [hsplit, Bool.toNat_true]
        omega
    have hc0div : natOfBits (x ++ [b]) / 2 < 2 ^ f.length := by
      rw [hdiv]
      have h := natOfBits_lt x
      rwa [hx] at h
    have hbits : bitsOfNat f.length (natOfBits (x ++ [b]) / 2) = x := by
      rw [hdiv, ← hx]
      exact bitsOfNat_natOfBits x
    have hentry : ∀ r, r < 2 ^ (f.length + 1) →
        ((List.range (2 ^ f.length)).foldl (oracleStep (f :: rest) f.length)
          (⟨2 ^ (f.length + 1), 2 ^ (f.length + 1), fun _ _ => 0⟩ : NPMatrix α)).entry r
            (natOfBits (x ++ [b])) =
          if r = natOfBits (x ++ [if x ∈ f :: rest then !b else b]) then 1 else 0 := by
      intro r _
      rw [oracle_fold_entry (f :: rest) f.length (List.range (2 ^ f.length)) _ r
        (natOfBits (x ++ [b])) (fun i hi => List.mem_range.mp hi)]
      rw [if_pos (List.mem_range.mpr hc0div)]
      have hT : (if bitsOfNat f.length (natOfBits (x ++ [b]) / 2) ∈ f :: rest
          then (if natOfBits (x ++ [b]) % 2 = 0
                then natOfBits (x ++ [b]) + 1 else natOfBits (x ++ [b]) - 1)
          else natOfBits (x ++ [b])) =
          natOfBits (x ++ [if x ∈ f :: rest then !b else b]) := by
        rw [hbits]
        by_cases hmem2 : x ∈ f :: rest
        · rw [if_pos hmem2, if_pos hmem2]
          rw [natOfBits_append_bit x (!b)]
          cases b
          · rw [hsplit, Bool.toNat_false, Bool.not_false, Bool.toNat_true]
            split_ifs <;> omega
          · rw [hsplit, Bool.toNat_true, Bool.not_true, Bool.toNat_false]
            split_ifs <;> omega
        · rw [if_neg hmem2, if_neg hmem2]
      rw [hT]
    show (npDotVec ((List.range (2 ^ f.length)).foldl (oracleStep (f :: rest) f.length)
        (⟨2 ^ (f.length + 1), 2 ^ (f.length + 1), fun _ _ => 0⟩ : NPMatrix α))
        ((List.range (2 ^ (f.length + 1))).map
          (fun j => if j = natOfBits (x ++ [b]) then (1 : α) else 0))).bind
      (fun s => some (⟨f.length + 1, s⟩ : QReg α)) =
      some (basisReg (f.length + 1) (natOfBits (x ++ [if x ∈ f :: rest then !b else b])))
    rw [oracle_apply_basis (2 ^ (f.length + 1)) _ hshape.1 hshape.2
      (natOfBits (x ++ [b])) (natOfBits (x ++ [if x ∈ f :: rest then !b else b]))
      hc0lt hentry]
    rfl

/-- C4 (witness): `fdef = ["00","10"]` over 3 qubits maps `|000>` to `|001>`
(prefix "00" accepted, output bit flipped). -/
theorem construct_unitary_F_oracle_witness :
    ∃ g : MGate ℤ,
      construct_unitary_F [[false, false], [true, false]] none = some g ∧
      g.qreg_size = 2 + 1 ∧
      g.apply (basisReg (2 + 1) (natOfBits ([false, false] ++ [false]))) =
        some (basisReg (2 + 1) (natOfBits ([false, false] ++
          [if [false, false] ∈ [[false, false], [true, false]] then !false else false]))) :=
  construct_unitary_F_oracle [[false, false], [true, false]] 2 (by decide)
    (by decide) [false, false] (by decide) false

end OracleClaim
section ScatterLemmas

lemma foldlM_eq_foldl {β γ : Type} (f : γ → β → Option γ) (g : γ → β → γ) (l : List β)
    (h : ∀ b ∈ l, ∀ acc, f acc b = some (g acc b)) (a : γ) :
    l.foldlM f a = some (l.foldl g a) := by
  induction l generalizing a with
  | nil => rfl
  | cons x xs ih =>
    rw [List.foldl_cons]
    show (f a x).bind (fun acc => xs.foldlM f acc) = _
    rw [h x (List.mem_cons_self x xs) a, Option.some_bind]
    exact ih (fun b hb acc => h b (List.mem_cons_of_mem x hb) acc) _

lemma foldl_scatter_flatten {γ : Type} (pairsOf : Nat → List (Nat × γ)) (blocks : List Nat)
    (a : List γ) :
    blocks.foldl (fun ns i => (pairsOf i).foldl (fun l p => l.set p.1 p.2) ns) a =
      ((blocks.map pairsOf).flatten).foldl (fun l p => l.set p.1 p.2) a := by
  rw [List.foldl_flatten, List.foldl_map]

lemma foldl_set_length {γ : Type} (P : List (Nat × γ)) (a : List γ) :
    (P.foldl (fun l p => l.set p.1 p.2) a).length = a.length := by
  induction P generalizing a with
  | nil => rfl
  | cons p ps ih =>
    rw [List.foldl_cons, ih, List.length_set]

lemma foldl_set_getD_of_not_mem {γ : Type} (P : List (Nat × γ)) (a : List γ) (x : Nat) (d : γ)
    (hx : ¬ x ∈ P.map Prod.fst) :
    (P.foldl (fun l p => l.set p.1 p.2) a).getD x d = a.getD x d := by
  induction P generalizing a with
  | nil => rfl
  | cons p ps ih =>
    rw [List.map_cons] at hx
    rw [List.foldl_cons, ih _ (fun hc => hx (List.mem_cons_of_mem _ hc))]
    rw [List.getD_eq_getElem?_getD, List.getD_eq_getElem?_getD,
      List.getElem?_set_ne (fun hc => hx (by rw [← hc]; exact List.mem_cons_self p.1 _))]

lemma foldl_set_getD_of_mem {γ : Type} (P : List (Nat × γ)) (a : List γ) (x : Nat) (v : γ)
    (d : γ) (hnd : (P.map Prod.fst).Nodup) (hmem : (x, v) ∈ P) (hx : x < a.length) :
    (P.foldl (fun l p => l.set p.1 p.2) a).getD x d = v := by
  induction P generalizing a with
  | nil => cases hmem
  | cons p ps ih =>
    rw [List.foldl_cons]
    rw [List.map_cons, List.nodup_cons] at hnd
    rcases List.mem_cons.mp hmem with heq | hin
    · have hxp : ¬ x ∈ ps.map Prod.fst := by
        rw [show x = p.1 from congrArg Prod.fst heq]
        exact hnd.1
      rw [foldl_set_getD_of_not_mem ps _ x d hxp]
      rw [show p = (x, v) from heq.symm]
      rw [List.getD_eq_getElem?_getD, List.getElem?_set_self (by simpa using hx)]
      rfl
    · exact ih _ hnd.2 hin (by rw [List.length_set]; exact hx)

lemma flatten_chunks {γ : Type} (M : Nat) :
    ∀ (c : Nat) (s : Nat) (l : List γ), s + c * M = l.length →
      ((List.range' s c M).map (fun i => (l.drop i).take M)).flatten = l.drop s := by
  intro c
  induction c with
  | zero =>
    intro s l h
    rw [Nat.zero_mul, Nat.add_zero] at h
    show ([] : List (List γ)).flatten = l.drop s
    rw [List.flatten_nil]
    exact (List.drop_of_length_le (by omega)).symm
  | succ c2 ih =>
    intro s l h
    rw [Nat.succ_mul] at h
    rw [List.range'_succ, List.map_cons, List.flatten_cons]
    rw [ih (s + M) l (by omega)]
    rw [show l.drop (s + M) = (l.drop s).drop M from (List.drop_drop M s l).symm]
    exact List.take_append_drop M (l.drop s)

lemma getD_map_lt {γ δ : Type} (f : γ → δ) (l : List γ) (j : Nat) (h : j < l.length)
    (d : γ) (e : δ) : (l.map f).getD j e = f (l.getD j d) := by
  rw [List.getD_eq_getElem _ _ (by rw [List.length_map]; exact h),
    List.getElem_map, List.getD_eq_getElem _ _ h]

lemma getD_take_drop {γ : Type} (l : List γ) (i j M : Nat) (hj : j < M)
    (hij : i + j < l.length) (d : γ) :
    ((l.drop i).take M).getD j d = l.getD (i + j) d := by
  have hb : j < ((l.drop i).take M).length := by
    rw [List.length_take, List.length_drop]
    omega
  rw [List.getD_eq_getElem _ _ hb, List.getD_eq_getElem _ _ hij]
  rw [List.getElem_take, List.getElem_drop]

end ScatterLemmas
section LazyApplyLemmas

variable {α : Type} [CommRing α]

lemma block_count (m n : Nat) (hmn : m ≤ n) :
    (2 ^ n + 2 ^ m - 1) / 2 ^ m = 2 ^ (n - m) := by
  have hsplit : 2 ^ m * 2 ^ (n - m) = 2 ^ n := by
    rw [← Nat.pow_add, Nat.add_sub_cancel' hmn]
  have hM : 0 < 2 ^ m := Nat.pos_pow_of_pos _ (by omega)
  rw [← hsplit]
  rw [show 2 ^ m * 2 ^ (n - m) + 2 ^ m - 1 = 2 ^ m * 2 ^ (n - m) + (2 ^ m - 1) from by omega]
  rw [Nat.mul_add_div hM, Nat.div_eq_of_lt (by omega), Nat.add_zero]

/-- One block of `LazyGate.apply` succeeds when every index is in range and the
local matrix is square of the block size, and scatters the local matvec. -/
lemma lazyBlockStep_eq (U : NPMatrix α) (state ns : List α) (idxs : List Nat)
    (hall : ∀ t ∈ idxs, t < state.length)
    (hcols : U.cols = idxs.length) (hrows : U.rows = idxs.length) :
    lazyBlockStep U state ns idxs =
      some ((idxs.zip ((List.range U.rows).map fun r =>
        ∑ j ∈ Finset.range U.cols, U.entry r j *
          (idxs.map fun t => state.getD t 0).getD j 0)).foldl
        (fun l p => l.set p.1 p.2) ns) := by
  unfold lazyBlockStep
  rw [if_pos (show idxs.all (fun t => decide (t < state.length)) = true from by
    simp only [List.all_eq_true, decide_eq_true_eq]
    exact hall)]
  show (npDotVec U (idxs.map fun t => state.getD t 0)).bind _ = _
  rw [npDotVec_eq_some (by rw [hcols, List.length_map])]
  rw [Option.some_bind]
  rw [if_pos (show idxs.length = _ from by rw [List.length_map, List.length_range, hrows])]

/-- Under in-range nodup targets and a square local matrix of the right size,
`LazyGate.apply`'s state loop succeeds and equals the fold of the write list
over the zero vector. -/
lemma applyState_eq_writes (U : NPMatrix α) (qbpos : List Nat) (n : Nat)
    (hnd : qbpos.Nodup) (hbd : ∀ q ∈ qbpos, q < n)
    (hUr : U.rows = 2 ^ qbpos.length) (hUc : U.cols = 2 ^ qbpos.length)
    (state : List α) (hlen : state.length = 2 ^ n) :
    (LazyGate.init U qbpos n).applyState state =
      some ((lazyWrites U qbpos n state).foldl (fun l p => l.set p.1 p.2)
        (List.replicate state.length 0)) := by
  have hm : qbpos.length ≤ n := qbpos_length_le qbpos n hnd hbd
  have hsplit : 2 ^ qbpos.length * 2 ^ (n - qbpos.length) = 2 ^ n := by
    rw [← Nat.pow_add, Nat.add_sub_cancel' hm]
  have hB := bases_length qbpos n
  have hBmem : ∀ t ∈ chunkSort (get_qbpos qbpos) (2 ^ qbpos.length) (lazyStage1 qbpos n),
      t < 2 ^ n := fun t ht =>
    List.mem_range.mp ((bases_perm_range qbpos n).mem_iff.mp ht)
  have hL : (LazyGate.init U qbpos n).applyState state =
      (List.range' 0 ((2 ^ n + 2 ^ qbpos.length - 1) / 2 ^ qbpos.length)
          (2 ^ qbpos.length)).foldlM
        (fun ns i => lazyBlockStep U state ns
          (((chunkSort (get_qbpos qbpos) (2 ^ qbpos.length) (lazyStage1 qbpos n)).drop i).take
            (2 ^ qbpos.length)))
        (List.replicate state.length 0) := rfl
  rw [hL, block_count qbpos.length n hm]
  have hidxlen : ∀ i ∈ List.range' 0 (2 ^ (n - qbpos.length)) (2 ^ qbpos.length),
      (((chunkSort (get_qbpos qbpos) (2 ^ qbpos.length) (lazyStage1 qbpos n)).drop i).take
        (2 ^ qbpos.length)).length = 2 ^ qbpos.length := by
    intro i hi
    obtain ⟨j, hj, hij⟩ := List.mem_range'.mp hi
    rw [Nat.zero_add] at hij
    have hj1 : 2 ^ qbpos.length * (j + 1) ≤ 2 ^ n := by
      rw [← hsplit]
      exact Nat.mul_le_mul_left _ (by omega)
    rw [Nat.mul_succ] at hj1
    rw [List.length_take, List.length_drop, hB]
    omega
  have hstep : ∀ i ∈ List.range' 0 (2 ^ (n - qbpos.length)) (2 ^ qbpos.length),
      ∀ ns : List α,
      lazyBlockStep U state ns
        (((chunkSort (get_qbpos qbpos) (2 ^ qbpos.length) (lazyStage1 qbpos n)).drop i).take
          (2 ^ qbpos.length)) =
      some (((((chunkSort (get_qbpos qbpos) (2 ^ qbpos.length)
            (lazyStage1 qbpos n)).drop i).take (2 ^ qbpos.length)).zip
          ((List.range U.rows).map fun r =>
            ∑ j ∈ Finset.range U.cols, U.entry r j *
              ((((chunkSort (get_qbpos qbpos) (2 ^ qbpos.length)
                  (lazyStage1 qbpos n)).drop i).take (2 ^ qbpos.length)).map
                fun t => state.getD t 0).getD j 0)).foldl
        (fun l p => l.set p.1 p.2) ns) := by
    intro i hi ns
    exact lazyBlockStep_eq U state ns _
      (fun t ht => by
        rw [hlen]
        exact hBmem t (List.drop_subset _ _ (List.take_subset _ _ ht)))
      (by rw [hUc, hidxlen i hi])
      (by rw [hUr, hidxlen i hi])
  rw [foldlM_eq_foldl _ _ _ hstep]
  exact congrArg some (foldl_scatter_flatten
    (fun i =>
      (((chunkSort (get_qbpos qbpos) (2 ^ qbpos.length) (lazyStage1 qbpos n)).drop i).take
          (2 ^ qbpos.length)).zip
        ((List.range U.rows).map fun r =>
          ∑ j ∈ Finset.range U.cols, U.entry r j *
            ((((chunkSort (get_qbpos qbpos) (2 ^ qbpos.length)
                (lazyStage1 qbpos n)).drop i).take (2 ^ qbpos.length)).map
              fun t => state.getD t 0).getD j 0)) _ _)

end LazyApplyLemmas
section LazyApplyMore

variable {α : Type} [CommRing α]

lemma mem_blocks_bound (m n : Nat) (hm : m ≤ n) (i : Nat)
    (hi : i ∈ List.range' 0 (2 ^ (n - m)) (2 ^ m)) : i + 2 ^ m ≤ 2 ^ n := by
  obtain ⟨j, hj, hij⟩ := List.mem_range'.mp hi
  rw [Nat.zero_add] at hij
  have hsplit : 2 ^ m * 2 ^ (n - m) = 2 ^ n := by
    rw [← Nat.pow_add, Nat.add_sub_cancel' hm]
  have hj1 : 2 ^ m * (j + 1) ≤ 2 ^ n := by
    rw [← hsplit]
    exact Nat.mul_le_mul_left _ (by omega)
  rw [Nat.mul_succ] at hj1
  omega

lemma bases_slice_length (qbpos : List Nat) (n i : Nat)
    (hi : i + 2 ^ qbpos.length ≤ 2 ^ n) :
    (((chunkSort (get_qbpos qbpos) (2 ^ qbpos.length) (lazyStage1 qbpos n)).drop i).take
      (2 ^ qbpos.length)).length = 2 ^ qbpos.length := by
  rw [List.length_take, List.length_drop, bases_length]
  omega

lemma mem_flatten_of_mem_map {γ δ : Type} (f : γ → List δ) (l : List γ) (i : γ) (hi : i ∈ l)
    (d : δ) (hd : d ∈ f i) : d ∈ (l.map f).flatten := by
  rw [List.mem_flatten]
  exact ⟨f i, List.mem_map_of_mem f hi, hd⟩

lemma denseEmbed_entry (U : NPMatrix α) (qbpos : List Nat) (n x y : Nat) :
    (denseEmbed U qbpos n).entry x y =
      if get_spectator (specposOf qbpos n) x = get_spectator (specposOf qbpos n) y then
        U.entry (get_qbpos qbpos x) (get_qbpos qbpos y)
      else 0 := rfl

/-- The first components of the write list are exactly the shuffled `bases`. -/
lemma writes_fst (U : NPMatrix α) (qbpos : List Nat) (n : Nat)
    (hnd : qbpos.Nodup) (hbd : ∀ q ∈ qbpos, q < n)
    (hUr : U.rows = 2 ^ qbpos.length) (state : List α) :
    (lazyWrites U qbpos n state).map Prod.fst =
      chunkSort (get_qbpos qbpos) (2 ^ qbpos.length) (lazyStage1 qbpos n) := by
  have hm : qbpos.length ≤ n := qbpos_length_le qbpos n hnd hbd
  unfold lazyWrites
  rw [List.map_flatten, List.map_map]
  trans ((List.range' 0 (2 ^ (n - qbpos.length)) (2 ^ qbpos.length)).map
      (fun i => ((chunkSort (get_qbpos qbpos) (2 ^ qbpos.length)
        (lazyStage1 qbpos n)).drop i).take (2 ^ qbpos.length))).flatten
  · apply congrArg List.flatten
    apply List.map_congr_left
    intro i hi
    apply List.map_fst_zip
    rw [bases_slice_length qbpos n i (mem_blocks_bound _ _ hm i hi), List.length_map,
      List.length_range, hUr]
  · refine Eq.trans (flatten_chunks (2 ^ qbpos.length) (2 ^ (n - qbpos.length)) 0
      (chunkSort (get_qbpos qbpos) (2 ^ qbpos.length) (lazyStage1 qbpos n)) ?_)
      (List.drop_zero _)
    rw [Nat.zero_add, ← Nat.pow_add, Nat.sub_add_cancel hm, bases_length]

end LazyApplyMore
section LazyWritesValue

variable {α : Type} [CommRing α]

/-- The scattered state reads, at each index `x`, the local matvec of the
block of `x`: row `get_qbpos x` of the matrix against the amplitudes gathered
along `bases` in the block of spectator key `get_spectator x`. -/
lemma writes_getD (U : NPMatrix α) (qbpos : List Nat) (n : Nat)
    (hnd : qbpos.Nodup) (hbd : ∀ q ∈ qbpos, q < n)
    (hUr : U.rows = 2 ^ qbpos.length) (hUc : U.cols = 2 ^ qbpos.length)
    (state : List α) (hlen : state.length = 2 ^ n) (x : Nat) (hx : x < 2 ^ n) :
    ((lazyWrites U qbpos n state).foldl (fun l p => l.set p.1 p.2)
        (List.replicate state.length 0)).getD x 0 =
      ∑ j ∈ Finset.range (2 ^ qbpos.length),
        U.entry (get_qbpos qbpos x) j *
          state.getD ((chunkSort (get_qbpos qbpos) (2 ^ qbpos.length)
            (lazyStage1 qbpos n)).getD
              (2 ^ qbpos.length * get_spectator (specposOf qbpos n) x + j) 0) 0 := by
  have hm : qbpos.length ≤ n := qbpos_length_le qbpos n hnd hbd
  have hB := bases_length qbpos n
  have hBnd : (chunkSort (get_qbpos qbpos) (2 ^ qbpos.length) (lazyStage1 qbpos n)).Nodup :=
    ((bases_perm_range qbpos n).nodup_iff).mpr (List.nodup_range _)
  have hgx : get_spectator (specposOf qbpos n) x < 2 ^ (n - qbpos.length) := by
    rw [← specposOf_length qbpos n hnd hbd]
    exact get_spectator_lt _ (specposOf_mono qbpos n) x
  have hrx := get_qbpos_lt qbpos x
  have hi0 : 2 ^ qbpos.length * get_spectator (specposOf qbpos n) x ∈
      List.range' 0 (2 ^ (n - qbpos.length)) (2 ^ qbpos.length) :=
    List.mem_range'.mpr ⟨get_spectator (specposOf qbpos n) x, hgx, (Nat.zero_add _).symm⟩
  have hbound := mem_blocks_bound qbpos.length n hm _ hi0
  have hslice := bases_slice_length qbpos n _ hbound
  have hkey : 2 ^ qbpos.length * get_spectator (specposOf qbpos n) x + get_qbpos qbpos x =
      lazyKey qbpos n x := by
    unfold lazyKey
    rw [Nat.mul_comm]
  have hvlen : (((chunkSort (get_qbpos qbpos) (2 ^ qbpos.length) (lazyStage1 qbpos n)).drop
      (2 ^ qbpos.length * get_spectator (specposOf qbpos n) x)).take
      (2 ^ qbpos.length)).length = 2 ^ qbpos.length := hslice
  have hx1 : (((chunkSort (get_qbpos qbpos) (2 ^ qbpos.length) (lazyStage1 qbpos n)).drop
      (2 ^ qbpos.length * get_spectator (specposOf qbpos n) x)).take
      (2 ^ qbpos.length)).getD (get_qbpos qbpos x) 0 = x := by
    rw [getD_take_drop (chunkSort (get_qbpos qbpos) (2 ^ qbpos.length) (lazyStage1 qbpos n))
      (2 ^ qbpos.length * get_spectator (specposOf qbpos n) x) (get_qbpos qbpos x)
      (2 ^ qbpos.length) hrx
      (by rw [hB, hkey]; exact lazyKey_lt qbpos n hnd hbd x) 0]
    rw [hkey]
    exact bases_getD_lazyKey qbpos n hnd hbd x hx
  have hv2 : (((List.range U.rows).map fun r =>
      ∑ j ∈ Finset.range U.cols, U.entry r j *
        ((((chunkSort (get_qbpos qbpos) (2 ^ qbpos.length) (lazyStage1 qbpos n)).drop
            (2 ^ qbpos.length * get_spectator (specposOf qbpos n) x)).take
          (2 ^ qbpos.length)).map fun t => state.getD t 0).getD j 0)).getD
      (get_qbpos qbpos x) 0 =
      ∑ j ∈ Finset.range U.cols, U.entry (get_qbpos qbpos x) j *
        ((((chunkSort (get_qbpos qbpos) (2 ^ qbpos.length) (lazyStage1 qbpos n)).drop
            (2 ^ qbpos.length * get_spectator (specposOf qbpos n) x)).take
          (2 ^ qbpos.length)).map fun t => state.getD t 0).getD j 0 := by
    rw [getD_map_lt _ _ _ (by rw [List.length_range, hUr]; exact hrx) 0 0]
    rw [List.getD_eq_getElem _ _ (by rw [List.length_range, hUr]; exact hrx),
      List.getElem_range]
  have hzlen : get_qbpos qbpos x <
      ((((chunkSort (get_qbpos qbpos) (2 ^ qbpos.length) (lazyStage1 qbpos n)).drop
          (2 ^ qbpos.length * get_spectator (specposOf qbpos n) x)).take
        (2 ^ qbpos.length)).zip
        ((List.range U.rows).map fun r =>
          ∑ j ∈ Finset.range U.cols, U.entry r j *
            ((((chunkSort (get_qbpos qbpos) (2 ^ qbpos.length) (lazyStage1 qbpos n)).drop
                (2 ^ qbpos.length * get_spectator (specposOf qbpos n) x)).take
              (2 ^ qbpos.length)).map fun t => state.getD t 0).getD j 0)).length := by
    rw [List.length_zip, hslice, List.length_map, List.length_range, hUr]
    omega
  have hmemW : (x, ∑ j ∈ Finset.range U.cols, U.entry (get_qbpos qbpos x) j *
      ((((chunkSort (get_qbpos qbpos) (2 ^ qbpos.length) (lazyStage1 qbpos n)).drop
          (2 ^ qbpos.length * get_spectator (specposOf qbpos n) x)).take
        (2 ^ qbpos.length)).map fun t => state.getD t 0).getD j 0) ∈
      lazyWrites U qbpos n state := by
    unfold lazyWrites
    apply mem_flatten_of_mem_map _ _ _ hi0
    rw [List.mem_iff_getElem]
    refine ⟨get_qbpos qbpos x, hzlen, ?_⟩
    rw [List.getElem_zip, Prod.mk.injEq]
    constructor
    · exact (List.getD_eq_getElem _ 0 (by rw [hslice]; exact hrx)).symm.trans hx1
    · exact (List.getD_eq_getElem _ 0
        (by rw [List.length_map, List.length_range, hUr]; exact hrx)).symm.trans hv2
  rw [foldl_set_getD_of_mem (lazyWrites U qbpos n state)
    (List.replicate state.length 0) x _ 0
    (by rw [writes_fst U qbpos n hnd hbd hUr state]; exact hBnd)
    hmemW (by rw [List.length_replicate, hlen]; exact hx)]
  rw [hUc]
  apply Finset.sum_congr rfl
  intro j hj
  have hj2 := Finset.mem_range.mp hj
  rw [getD_map_lt _ _ _ (by rw [hslice]; exact hj2) 0 0]
  rw [getD_take_drop (chunkSort (get_qbpos qbpos) (2 ^ qbpos.length) (lazyStage1 qbpos n))
    (2 ^ qbpos.length * get_spectator (specposOf qbpos n) x) j
    (2 ^ qbpos.length) hj2 (by rw [hB]; omega) 0]

end LazyWritesValue
section DenseSum

variable {α : Type} [CommRing α]

/-- The dense matvec row at `x` collapses to a sum over the `2^m` basis states
that share `x`'s spectator bits, read through the `bases` table. -/
lemma dense_sum_eq (U : NPMatrix α) (qbpos : List Nat) (n : Nat)
    (hnd : qbpos.Nodup) (hbd : ∀ q ∈ qbpos, q < n)
    (state : List α) (x : Nat) (hx : x < 2 ^ n) :
    (∑ y ∈ Finset.range (2 ^ n), (denseEmbed U qbpos n).entry x y * state.getD y 0) =
      ∑ j ∈ Finset.range (2 ^ qbpos.length),
        U.entry (get_qbpos qbpos x) j *
          state.getD ((chunkSort (get_qbpos qbpos) (2 ^ qbpos.length)
            (lazyStage1 qbpos n)).getD
              (2 ^ qbpos.length * get_spectator (specposOf qbpos n) x + j) 0) 0 := by
  have hm : qbpos.length ≤ n := qbpos_length_le qbpos n hnd hbd
  have hgx : get_spectator (specposOf qbpos n) x < 2 ^ (n - qbpos.length) := by
    rw [← specposOf_length qbpos n hnd hbd]
    exact get_spectator_lt _ (specposOf_mono qbpos n) x
  have hblock : 2 ^ qbpos.length * get_spectator (specposOf qbpos n) x + 2 ^ qbpos.length ≤
      2 ^ n :=
    mem_blocks_bound qbpos.length n hm _
      (List.mem_range'.mpr ⟨get_spectator (specposOf qbpos n) x, hgx, (Nat.zero_add _).symm⟩)
  have h1 : ∀ y ∈ Finset.range (2 ^ n),
      (denseEmbed U qbpos n).entry x y * state.getD y 0 =
        if get_spectator (specposOf qbpos n) x = get_spectator (specposOf qbpos n) y then
          U.entry (get_qbpos qbpos x) (get_qbpos qbpos y) * state.getD y 0
        else 0 := by
    intro y _
    rw [denseEmbed_entry, ite_mul, zero_mul]
  rw [Finset.sum_congr rfl h1, ← Finset.sum_filter]
  have hkeys : ∀ j < 2 ^ qbpos.length,
      (chunkSort (get_qbpos qbpos) (2 ^ qbpos.length) (lazyStage1 qbpos n)).getD
        (2 ^ qbpos.length * get_spectator (specposOf qbpos n) x + j) 0 < 2 ^ n ∧
      get_spectator (specposOf qbpos n)
        ((chunkSort (get_qbpos qbpos) (2 ^ qbpos.length) (lazyStage1 qbpos n)).getD
          (2 ^ qbpos.length * get_spectator (specposOf qbpos n) x + j) 0) =
        get_spectator (specposOf qbpos n) x ∧
      get_qbpos qbpos
        ((chunkSort (get_qbpos qbpos) (2 ^ qbpos.length) (lazyStage1 qbpos n)).getD
          (2 ^ qbpos.length * get_spectator (specposOf qbpos n) x + j) 0) = j := by
    intro j hj
    obtain ⟨hlt, hsp, hqb⟩ := bases_getD_keys qbpos n hnd hbd
      (2 ^ qbpos.length * get_spectator (specposOf qbpos n) x + j) (by omega)
    refine ⟨hlt, ?_, ?_⟩
    · rw [hsp, Nat.mul_add_div (Nat.pos_pow_of_pos _ (by omega)),
        Nat.div_eq_of_lt hj, Nat.add_zero]
    · rw [hqb, Nat.mul_add_mod, Nat.mod_eq_of_lt hj]
  refine Finset.sum_nbij' (fun y => get_qbpos qbpos y)
    (fun j => (chunkSort (get_qbpos qbpos) (2 ^ qbpos.length) (lazyStage1 qbpos n)).getD
      (2 ^ qbpos.length * get_spectator (specposOf qbpos n) x + j) 0)
    ?_ ?_ ?_ ?_ ?_
  · intro y _
    exact Finset.mem_range.mpr (get_qbpos_lt qbpos y)
  · intro j hj
    obtain ⟨hlt, hsp, _⟩ := hkeys j (Finset.mem_range.mp hj)
    exact Finset.mem_filter.mpr ⟨Finset.mem_range.mpr hlt, hsp.symm⟩
  · intro y hy
    obtain ⟨hy1, hy2⟩ := Finset.mem_filter.mp hy
    show (chunkSort (get_qbpos qbpos) (2 ^ qbpos.length) (lazyStage1 qbpos n)).getD
      (2 ^ qbpos.length * get_spectator (specposOf qbpos n) x + get_qbpos qbpos y) 0 = y
    rw [hy2]
    rw [show 2 ^ qbpos.length * get_spectator (specposOf qbpos n) y + get_qbpos qbpos y =
      lazyKey qbpos n y from by unfold lazyKey; rw [Nat.mul_comm]]
    exact bases_getD_lazyKey qbpos n hnd hbd y (Finset.mem_range.mp hy1)
  · intro j hj
    exact (hkeys j (Finset.mem_range.mp hj)).2.2
  · intro y hy
    obtain ⟨hy1, hy2⟩ := Finset.mem_filter.mp hy
    have hby : (chunkSort (get_qbpos qbpos) (2 ^ qbpos.length) (lazyStage1 qbpos n)).getD
        (2 ^ qbpos.length * get_spectator (specposOf qbpos n) x + get_qbpos qbpos y) 0 = y := by
      rw [hy2]
      rw [show 2 ^ qbpos.length * get_spectator (specposOf qbpos n) y + get_qbpos qbpos y =
        lazyKey qbpos n y from by unfold lazyKey; rw [Nat.mul_comm]]
      exact bases_getD_lazyKey qbpos n hnd hbd y (Finset.mem_range.mp hy1)
    show U.entry (get_qbpos qbpos x) (get_qbpos qbpos y) * state.getD y 0 =
      U.entry (get_qbpos qbpos x) (get_qbpos qbpos y) *
        state.getD ((chunkSort (get_qbpos qbpos) (2 ^ qbpos.length) (lazyStage1 qbpos n)).getD
          (2 ^ qbpos.length * get_spectator (specposOf qbpos n) x + get_qbpos qbpos y) 0) 0
    rw [hby]

end DenseSum
section LazyDenseClaim

variable {α : Type} [CommRing α]

/-- C1: for every local matrix `U` that is square of size `2^m`, every list of
`m` distinct in-range target positions inside an `n`-qubit register, and every
register whose state vector has the full length `2^n`, applying the lazy gate
built from `(U, qbpos, n)` produces exactly the same output as applying the
dense `2^n × 2^n` gate `denseEmbed U qbpos n` obtained by tensoring `U` and
identities so that `U` acts at the target positions (hence the same output on
every basis input). -/
theorem lazy_gate_matches_dense_embedding (U : NPMatrix α) (qbpos : List Nat) (n : Nat)
    (reg : QReg α) (hnd : qbpos.Nodup) (hbd : ∀ q ∈ qbpos, q < n)
    (hUr : U.rows = 2 ^ qbpos.length) (hUc : U.cols = 2 ^ qbpos.length)
    (hlen : reg.state.length = 2 ^ n) :
    (LazyGate.init U qbpos n).apply reg = MGate.apply ⟨denseEmbed U qbpos n, n⟩ reg := by
  show ((LazyGate.init U qbpos n).applyState reg.state).map
      (fun s => (⟨reg.nbits, s⟩ : QReg α)) =
    (npDotVec (denseEmbed U qbpos n) reg.state).bind
      fun s => some (⟨reg.nbits, s⟩ : QReg α)
  rw [applyState_eq_writes U qbpos n hnd hbd hUr hUc reg.state hlen]
  rw [npDotVec_eq_some (show (denseEmbed U qbpos n).cols = reg.state.length from hlen.symm)]
  rw [Option.some_bind, Option.map_some']
  show some (⟨reg.nbits, (lazyWrites U qbpos n reg.state).foldl (fun l p => l.set p.1 p.2)
      (List.replicate reg.state.length 0)⟩ : QReg α) =
    some (⟨reg.nbits, (List.range (2 ^ n)).map fun i =>
      ∑ j ∈ Finset.range (2 ^ n),
        (denseEmbed U qbpos n).entry i j * reg.state.getD j 0⟩ : QReg α)
  refine congrArg some (congrArg (QReg.mk reg.nbits) ?_)
  apply List.ext_getElem
  · rw [foldl_set_length, List.length_replicate, List.length_map, List.length_range, hlen]
  · intro k h1 h2
    have hk : k < 2 ^ n := by
      rw [List.length_map, List.length_range] at h2
      exact h2
    rw [← List.getD_eq_getElem _ 0 h1, ← List.getD_eq_getElem _ 0 h2]
    have hr : ((List.range (2 ^ n)).map fun i =>
        ∑ j ∈ Finset.range (2 ^ n),
          (denseEmbed U qbpos n).entry i j * reg.state.getD j 0).getD k 0 =
        ∑ j ∈ Finset.range (2 ^ n),
          (denseEmbed U qbpos n).entry k j * reg.state.getD j 0 := by
      rw [getD_map_lt _ _ _ (by rw [List.length_range]; exact hk) 0 0]
      rw [List.getD_eq_getElem _ _ (by rw [List.length_range]; exact hk), List.getElem_range]
    rw [hr, writes_getD U qbpos n hnd hbd hUr hUc reg.state hlen k hk]
    exact (dense_sum_eq U qbpos n hnd hbd reg.state k hk).symm

/-- C1 (witness): `X` on target position 1 of a 2-qubit register with state
`[1, 2, 3, 4]`: the lazy gate agrees with the dense embedding. -/
theorem lazy_gate_matches_dense_embedding_witness :
    (([1] : List Nat).Nodup ∧ (∀ q ∈ ([1] : List Nat), q < 2) ∧
      Xmat.rows = 2 ^ ([1] : List Nat).length ∧ Xmat.cols = 2 ^ ([1] : List Nat).length ∧
      (⟨2, [1, 2, 3, 4]⟩ : QReg ℤ).state.length = 2 ^ 2) ∧
    (LazyGate.init Xmat [1] 2).apply (⟨2, [1, 2, 3, 4]⟩ : QReg ℤ) =
      MGate.apply ⟨denseEmbed Xmat [1] 2, 2⟩ (⟨2, [1, 2, 3, 4]⟩ : QReg ℤ) :=
  ⟨⟨by decide, by decide, rfl, rfl, rfl⟩,
    lazy_gate_matches_dense_embedding Xmat [1] 2 ⟨2, [1, 2, 3, 4]⟩ (by decide) (by decide)
      rfl rfl rfl⟩

end LazyDenseClaim
